import Mathlib

set_option maxRecDepth 20000

/-!
Verification of the label-parsing and distance-computation pipeline of
`scripts/3_compute_distances.py` (Cow_Chewing_Analysis).

Modelling conventions:
* Python floats are modelled exactly: a parsed float is either a rational
  number (`PyFloat.pfin`), an infinity, or a NaN.  The script's control
  decisions (token counts, divisibility, presence/absence) never depend on
  rounding, so exact arithmetic is a faithful model of the decision logic.
* `math.hypot` introduces a square root, so pixel distances live in a
  second value type `PyRVal` whose finite payload is a real number.
* Exceptions are modelled with `Except PyErr`; a Python function that can
  raise returns in this monad.  Silent skips are `Option`.
* Strings are processed through their character lists; ASCII digits,
  ASCII case folding and the usual whitespace characters model Python's
  `str.split` / `str.strip` / `str.isdigit` / `str.lower` on this data
  (the label files at hand are ASCII).
-/

namespace CowChew

/-- Result of Python `float(token)`: a finite rational, `inf`, `-inf`, or `nan`. -/
inductive PyFloat : Type where
  | pfin (q : ℚ)
  | pinf
  | pninf
  | pnan
deriving DecidableEq

/-- Exceptions that the modelled script can raise. -/
inductive PyErr : Type where
  | valueError
  | overflowError
  | unicodeDecodeError
  | tarOpenError
  | zeroDivisionError
deriving DecidableEq

/-- Whitespace characters recognised by Python's no-argument `str.split`
(space, tab, LF, CR, vertical tab, form feed). -/
def isWS (c : Char) : Bool :=
  c = ' ' || c = '\t' || c = '\n' || c = '\r' || c = Char.ofNat 11 || c = Char.ofNat 12

/-- ASCII decimal digit test (models `str.isdigit` on ASCII data). -/
def isDigitCh (c : Char) : Bool :=
  '0' ≤ c && c ≤ '9'

/-- ASCII lower-casing of one character (models `str.lower` on ASCII data). -/
def lowerAscii (c : Char) : Char :=
  if 'A' ≤ c && c ≤ 'Z' then Char.ofNat (c.toNat + 32) else c

/-- Numeric value of a digit string, most significant first (models `int("0042")`). -/
def natOfDigits (cs : List Char) : ℕ :=
  cs.foldl (fun n c => 10 * n + (c.toNat - 48)) 0

/-- Accumulator pass of the whitespace tokeniser: `cur` holds the characters
of the token being read, in reverse. -/
def splitWsAux : List Char → List Char → List (List Char)
  | [], cur => if cur = [] then [] else [cur.reverse]
  | c :: rest, cur =>
    if isWS c then
      if cur = [] then splitWsAux rest []
      else cur.reverse :: splitWsAux rest []
    else splitWsAux rest (c :: cur)

/-- Python `str.split()` with no argument: split on runs of whitespace,
producing no empty tokens. -/
def splitWs (cs : List Char) : List (List Char) :=
  splitWsAux cs []

/-- Tokenise a line the way `line.split()` does. -/
def pySplitTokens (s : String) : List String :=
  (splitWs s.data).map (fun cs => ⟨cs⟩)

/-- Python `str.strip()`: drop whitespace from both ends. -/
def pyStripChars (cs : List Char) : List Char :=
  ((cs.dropWhile isWS).reverse.dropWhile isWS).reverse

/-- Python `str.strip()` on strings. -/
def pyStripStr (s : String) : String :=
  ⟨pyStripChars s.data⟩

/-- Strip one optional leading sign; returns (isNegative, rest). -/
def stripSign : List Char → Bool × List Char
  | '+' :: r => (false, r)
  | '-' :: r => (true, r)
  | r => (false, r)

/-- One step of the PEP 515 digit scan: `canU` records whether the
previous character was a digit, so that an underscore may be consumed
(it must sit between two digits). -/
def scanDigitsAux : Bool → List Char → List Char × List Char
  | _, [] => ([], [])
  | canU, c :: rest =>
    if isDigitCh c then
      let p := scanDigitsAux true rest
      (c :: p.1, p.2)
    else if canU && c = '_' then
      match rest with
      | d :: _ =>
        if isDigitCh d then scanDigitsAux false rest
        else ([], c :: rest)
      | [] => ([], c :: rest)
    else ([], c :: rest)

/-- Scan a maximal PEP 515 digit sequence `digit ("_" digit)*`: returns the
digits (underscores removed, so the numeric value ignores them, as Python
does) and the unconsumed rest.  An underscore is consumed only between two
digits, so `1_0` scans fully while `1_`, `1__0` and `_1` leave an
underscore behind and make the enclosing literal invalid. -/
def scanDigits (cs : List Char) : List Char × List Char :=
  scanDigitsAux false cs

/-- Parse the mantissa part of a Python float literal:
`digits`, `digits.`, `digits.digits` or `.digits` (at least one digit
overall), where each digit sequence may contain PEP 515 underscores.
Returns the concatenated digit value and the number of fractional digits,
so that the mantissa's value is `N / 10 ^ f`. -/
def parseMantissa (cs : List Char) : Option (ℕ × ℕ) :=
  let p := scanDigits cs
  match p.2 with
  | [] => if p.1 = [] then none else some (natOfDigits p.1, 0)
  | '.' :: rest2 =>
    let f := scanDigits rest2
    if f.2 = [] then
      if p.1 = [] && f.1 = [] then none
      else some (natOfDigits (p.1 ++ f.1), f.1.length)
    else none
  | _ => none

/-- Split a float literal at its first exponent marker `e`/`E`, if any. -/
def splitAtExpChar : List Char → List Char × Option (List Char)
  | [] => ([], none)
  | c :: r =>
    if c = 'e' || c = 'E' then ([], some r)
    else
      let p := splitAtExpChar r
      (c :: p.1, p.2)

/-- Parse an exponent part: optional sign then at least one digit, with
PEP 515 underscores allowed between digits. -/
def parseExpPart (cs : List Char) : Option ℤ :=
  let p := stripSign cs
  let d := scanDigits p.2
  if d.1 ≠ [] && d.2 = [] then
    some (if p.1 then -(natOfDigits d.1 : ℤ) else (natOfDigits d.1 : ℤ))
  else none

/-- Parse an unsigned decimal float literal (mantissa with optional
exponent) into `(N, f, e)`: its exact value is `N * 10 ^ (e - f)`. -/
def parseDecimal (cs : List Char) : Option (ℕ × ℕ × ℤ) :=
  match splitAtExpChar cs with
  | (m, none) =>
    match parseMantissa m with
    | some p => some (p.1, p.2, 0)
    | none => none
  | (m, some e) =>
    match parseMantissa m, parseExpPart e with
    | some p, some k => some (p.1, p.2, k)
    | _, _ => none

/-- Exact rational value of a parsed literal, `N * 10 ^ (e - f)`.  Integer
values are built from natural numbers without rational arithmetic. -/
def litVal (N f : ℕ) (e : ℤ) : ℚ :=
  if 0 ≤ e - (f : ℤ) then ((N * 10 ^ (e - (f : ℤ)).toNat : ℕ) : ℚ)
  else (N : ℚ) / ((10 ^ ((f : ℤ) - e).toNat : ℕ) : ℚ)

/-- Exact threshold at which IEEE-754 double round-to-nearest-even
overflows to infinity: the midpoint above the largest finite double,
`2 ^ 1024 - 2 ^ 970` (written as a numeral so that it evaluates; see
`pyFloatInfBoundNat_eq`).  Python `float("1e999")` returns `inf` because
the literal's exact value reaches this bound. -/
def pyFloatInfBoundNat : ℕ :=
  179769313486231580793728971405303415079934132710037826936173778980444968292764750946649017977587207096330286416692887910946555547851940402630657488671505820681908902000708383676273854845817711531764475730270069855571366959622842914819860834936475292719074168444365510704342711559699508093042880177904174497792

/-- The overflow threshold is the midpoint above the largest finite
double. -/
theorem pyFloatInfBoundNat_eq : pyFloatInfBoundNat = 2 ^ 1024 - 2 ^ 970 := by
  norm_num [pyFloatInfBoundNat]

/-- Whether a literal's exact value reaches the overflow bound, decided by
integer comparison of `N * 10 ^ (e - f)` against the bound (so that it
evaluates: rational arithmetic normalises with `Nat.gcd`, which the kernel
cannot unfold).  `litOverflows_iff` certifies it against the exact value. -/
def litOverflows (N f : ℕ) (e : ℤ) : Bool :=
  if 0 ≤ e - (f : ℤ) then pyFloatInfBoundNat ≤ N * 10 ^ (e - (f : ℤ)).toNat
  else pyFloatInfBoundNat * 10 ^ ((f : ℤ) - e).toNat ≤ N

/-- The integer overflow test agrees with comparing the literal's exact
rational value against `2 ^ 1024 - 2 ^ 970`. -/
theorem litOverflows_iff (N f : ℕ) (e : ℤ) :
    litOverflows N f e = true ↔
      ((2 : ℚ) ^ 1024 - 2 ^ 970 ≤ litVal N f e) := by
  have hB : ((pyFloatInfBoundNat : ℕ) : ℚ) = (2 : ℚ) ^ 1024 - 2 ^ 970 := by
    rw [pyFloatInfBoundNat_eq]
    norm_num
  unfold litOverflows litVal
  by_cases hg : 0 ≤ e - (f : ℤ)
  · rw [if_pos hg, if_pos hg, decide_eq_true_eq, ← hB, Nat.cast_le]
  · have h10 : (0 : ℚ) < ((10 ^ ((f : ℤ) - e).toNat : ℕ) : ℚ) := by
      positivity
    rw [if_neg hg, if_neg hg, decide_eq_true_eq, ← hB, le_div_iff₀ h10,
      ← Nat.cast_mul, Nat.cast_le]

/-- Python `float(token)` on a whitespace-free token: optional sign, then
`inf`/`infinity`/`nan` (case-insensitive) or a decimal literal (with
PEP 515 underscores).  A literal whose exact value reaches the double
rounding threshold overflows to a signed infinity, as Python's conversion
does; `none` models a `ValueError` from the conversion.  Within the finite
range the value is kept exact (the script's decision logic never depends
on rounding of finite values). -/
def strToFloat (s : String) : Option PyFloat :=
  let p := stripSign s.data
  let lcs := p.2.map lowerAscii
  if lcs = "inf".data || lcs = "infinity".data then
    some (if p.1 then .pninf else .pinf)
  else if lcs = "nan".data then some .pnan
  else
    match parseDecimal p.2 with
    | some (N, f, e) =>
      if litOverflows N f e then some (if p.1 then .pninf else .pinf)
      else some (.pfin (if p.1 then -(litVal N f e) else litVal N f e))
    | none => none

/-- Test for a finite float value (a number, as opposed to `inf`/`nan`). -/
def PyFloat.isFinite : PyFloat → Bool
  | .pfin _ => true
  | _ => false

/-- Conversion of every token at once, failing if any single conversion
fails: the model of the `try`-wrapped list comprehension
`[float(t) for t in toks]`. -/
def mapOpt {α β : Type} (f : α → Option β) : List α → Option (List β)
  | [] => some []
  | a :: l =>
    match f a, mapOpt f l with
    | some b, some bs => some (b :: bs)
    | _, _ => none

/-- Python `int(x)` on a float value: truncation toward zero for finite
values, `OverflowError` on infinities, `ValueError` on NaN.  This call in
`parse_label_line` is outside the `try` block. -/
def pyInt : PyFloat → Except PyErr ℤ
  | .pfin q => .ok (if 0 ≤ q then ⌊q⌋ else ⌈q⌉)
  | .pinf => .error .overflowError
  | .pninf => .error .overflowError
  | .pnan => .error .valueError

/-- Keypoint grouping loop for a remainder whose length is a multiple of 3:
take triples `(x, y, conf)` until fewer than three tokens remain
(an incomplete tail is dropped, matching the `StopIteration` break). -/
def chunk3 {α : Type} : List α → List (α × α × Option α)
  | x :: y :: c :: t => (x, y, some c) :: chunk3 t
  | _ => []

/-- Keypoint grouping loop for pairs `(x, y)` with absent confidence;
an unpaired trailing token is dropped, matching the `StopIteration` break. -/
def chunk2 {α : Type} : List α → List (α × α × Option α)
  | x :: y :: t => (x, y, none) :: chunk2 t
  | _ => []

/-- Detection record produced by `parse_label_line`: class id, bounding box,
keypoints (normalised coordinates with optional confidence). -/
structure DetRec : Type where
  cls : ℤ
  boxX : PyFloat
  boxY : PyFloat
  boxW : PyFloat
  boxH : PyFloat
  kps : List (PyFloat × PyFloat × Option PyFloat)
deriving DecidableEq

/-- Model of `parse_label_line`: tokenise, require at least 5 tokens,
convert all tokens to floats (failure skips the line), take `int(vals[0])`
as the class id (may raise), then group the remaining tokens into
keypoints by the length-driven policy. -/
def parse_label_line (line : String) : Except PyErr (Option DetRec) :=
  let toks := pySplitTokens (pyStripStr line)
  if toks.length < 5 then .ok none
  else
    match mapOpt strToFloat toks with
    | none => .ok none
    | some vals =>
      match vals with
      | v0 :: v1 :: v2 :: v3 :: v4 :: rem =>
        match pyInt v0 with
        | .error e => .error e
        | .ok cls =>
          if rem.isEmpty then .ok (some ⟨cls, v1, v2, v3, v4, []⟩)
          else if rem.length % 3 = 0 then .ok (some ⟨cls, v1, v2, v3, v4, chunk3 rem⟩)
          else if rem.length % 2 = 0 then .ok (some ⟨cls, v1, v2, v3, v4, chunk2 rem⟩)
          else .ok (some ⟨cls, v1, v2, v3, v4, chunk2 rem⟩)
      | _ => .ok none

/-- Match test for `re` pattern `\d+\.txt$` at the current position: the whole
remaining text must be one or more digits followed by `.txt` (checked from
the reversed list: the last four characters are `.txt` and everything
before them is a nonempty digit run). -/
def matchesHere (t : List Char) : Bool :=
  t.reverse.take 4 = ['t', 'x', 't', '.'] && t.reverse.drop 4 ≠ [] &&
    (t.reverse.drop 4).all isDigitCh

/-- Digit group of a successful `matchesHere` position: everything before the
final `.txt`. -/
def groupHere (t : List Char) : List Char :=
  (t.reverse.drop 4).reverse

/-- Model of `FRAME_RE.search`: scan start positions left to right and return
the digit group of the leftmost position where `\d+\.txt$` matches. -/
def searchFrameRe : List Char → Option ℕ
  | [] => none
  | c :: t =>
    if matchesHere (c :: t) then some (natOfDigits (groupHere (c :: t)))
    else searchFrameRe t

/-- Model of `os.path.basename` (POSIX): the part after the last `/`. -/
def basenameChars (cs : List Char) : List Char :=
  (cs.reverse.takeWhile (fun c => c ≠ '/')).reverse

/-- Model of `name.rsplit('.', 1)[0]`: everything before the last dot, or the
whole string if there is no dot. -/
def stemChars (cs : List Char) : List Char :=
  match cs.reverse.dropWhile (fun c => c ≠ '.') with
  | [] => cs
  | _ :: rest => rest.reverse

/-- Model of Python `str.split(sep)` for a single-character separator,
keeping empty segments (`"".split('_') == [""]`). -/
def splitOnCh (sep : Char) : List Char → List (List Char)
  | [] => [[]]
  | c :: rest =>
    let r := splitOnCh sep rest
    if c = sep then [] :: r
    else
      match r with
      | g :: gs => (c :: g) :: gs
      | [] => [[c]]

/-- Model of `extract_frame_index`: first the regex search on the basename,
then the underscore fallback (`parts[-1].isdigit()`), else none. -/
def extract_frame_index (fname : String) : Option ℤ :=
  let base := basenameChars fname.data
  match searchFrameRe base with
  | some n => some (n : ℤ)
  | none =>
    let parts := splitOnCh '_' (stemChars base)
    match parts.getLast? with
    | some seg => if seg ≠ [] && seg.all isDigitCh then some (natOfDigits seg : ℤ) else none
    | none => none

/-- Claim-side formulation of the regex step (C6): if the basename ends in
`.txt` and a nonempty run of digits immediately precedes that extension,
the value of the maximal such trailing run. -/
def trailTxtVal (cs : List Char) : Option ℕ :=
  if cs.reverse.take 4 = ['t', 'x', 't', '.'] then
    if (cs.reverse.drop 4).takeWhile isDigitCh = [] then none
    else some (natOfDigits ((cs.reverse.drop 4).takeWhile isDigitCh).reverse)
  else none

/-- Claim-side formulation of the whole Frame Indexer policy (C6): trailing
digits before `.txt` in the basename; else an all-digit last underscore
segment of the extension-stripped basename; else absent. -/
def frameIndexSpec (fname : String) : Option ℤ :=
  let base := basenameChars fname.data
  match trailTxtVal base with
  | some n => some (n : ℤ)
  | none =>
    let parts := splitOnCh '_' (stemChars base)
    match parts.getLast? with
    | some seg => if seg ≠ [] && seg.all isDigitCh then some (natOfDigits seg : ℤ) else none
    | none => none

/-- Python float multiplication on exact values, with the IEEE-754 rules for
infinities and NaN (`inf * 0` is NaN, signs multiply, NaN propagates). -/
def pfMul : PyFloat → PyFloat → PyFloat
  | .pnan, _ => .pnan
  | _, .pnan => .pnan
  | .pfin a, .pfin b => .pfin (a * b)
  | .pinf, .pfin b => if 0 < b then .pinf else if b < 0 then .pninf else .pnan
  | .pninf, .pfin b => if 0 < b then .pninf else if b < 0 then .pinf else .pnan
  | .pfin a, .pinf => if 0 < a then .pinf else if a < 0 then .pninf else .pnan
  | .pfin a, .pninf => if 0 < a then .pninf else if a < 0 then .pinf else .pnan
  | .pinf, .pinf => .pinf
  | .pinf, .pninf => .pninf
  | .pninf, .pinf => .pninf
  | .pninf, .pninf => .pinf

/-- Python float subtraction on exact values, with the IEEE-754 rules for
infinities and NaN (`inf - inf` is NaN, NaN propagates). -/
def pfSub : PyFloat → PyFloat → PyFloat
  | .pnan, _ => .pnan
  | _, .pnan => .pnan
  | .pfin a, .pfin b => .pfin (a - b)
  | .pinf, .pfin _ => .pinf
  | .pninf, .pfin _ => .pninf
  | .pfin _, .pinf => .pninf
  | .pfin _, .pninf => .pinf
  | .pinf, .pinf => .pnan
  | .pinf, .pninf => .pinf
  | .pninf, .pinf => .pninf
  | .pninf, .pninf => .pnan

/-- Model of `norm_to_px(x, y, width, height) = (x*width, y*height)`:
plain affine scaling, no clamping, no rounding. -/
def norm_to_px (x y : PyFloat) (width height : ℤ) : PyFloat × PyFloat :=
  (pfMul x (.pfin (width : ℚ)), pfMul y (.pfin (height : ℚ)))

/-- Value of a pixel distance: `math.hypot` introduces a square root, so the
finite payload is a real number.  `math.hypot` never returns a negative
result, and with the script's divisor it never produces `-inf`, so three
constructors suffice. -/
inductive PyRVal : Type where
  | rfin (r : ℝ)
  | rinf
  | rnan

/-- Model of `math.hypot x y`: infinite if either argument is infinite (even
against NaN), NaN if either argument is NaN (and none infinite), else the
exact Euclidean norm. -/
noncomputable def pyHypot : PyFloat → PyFloat → PyRVal
  | .pinf, _ => .rinf
  | .pninf, _ => .rinf
  | _, .pinf => .rinf
  | _, .pninf => .rinf
  | .pnan, _ => .rnan
  | _, .pnan => .rnan
  | .pfin a, .pfin b => .rfin (Real.sqrt ((a : ℝ) ^ 2 + (b : ℝ) ^ 2))

/-- Model of `d_px / math.hypot(width, height)`: Python raises
`ZeroDivisionError` whenever the divisor is `0.0` (i.e. both dimensions are
zero), whatever the dividend; otherwise the division maps finite to finite
and preserves `inf`/NaN (the divisor is a positive real). -/
noncomputable def d_norm_of (d : PyRVal) (width height : ℤ) : Except PyErr PyRVal :=
  if width = 0 ∧ height = 0 then .error .zeroDivisionError
  else
    .ok (match d with
      | .rfin a => .rfin (a / Real.sqrt ((width : ℝ) ^ 2 + (height : ℝ) ^ 2))
      | .rinf => .rinf
      | .rnan => .rnan)

/-- One Output Row of the CSV; `none` models an absent (empty) field. -/
structure Row : Type where
  filename : String
  frame : Option ℤ
  time_s : Option ℚ
  nose_x : Option PyFloat
  nose_y : Option PyFloat
  mouth_x : Option PyFloat
  mouth_y : Option PyFloat
  d_px : Option PyRVal
  d_norm : Option PyRVal

/-- Row Assembler for one parsed Detection Record (the loop body of
`process_txt_handle`): fewer than two keypoints yields all-absent
coordinates and distances; otherwise keypoints 0 and 1 are denormalised,
their distance taken with `math.hypot`, and normalised by the frame
diagonal.  `time_s` is `frame / fps` when the frame is known and `fps` is
truthy (nonzero). -/
noncomputable def rowOfRec (fname : String) (width height : ℤ) (fps : ℚ) (rec : DetRec) :
    Except PyErr Row :=
  let frame := extract_frame_index fname
  let time_s : Option ℚ :=
    match frame with
    | some f => if fps ≠ 0 then some ((f : ℚ) / fps) else none
    | none => none
  match rec.kps with
  | (nx, ny, _) :: (mx, my, _) :: _ =>
    let np := norm_to_px nx ny width height
    let mp := norm_to_px mx my width height
    let dx := pfSub np.1 mp.1
    let dy := pfSub np.2 mp.2
    let dpx := pyHypot dx dy
    match d_norm_of dpx width height with
    | .error e => .error e
    | .ok dnorm =>
      .ok ⟨fname, frame, time_s, some np.1, some np.2, some mp.1, some mp.2,
           some dpx, some dnorm⟩
  | _ => .ok ⟨fname, frame, time_s, none, none, none, none, none, none⟩

/-- Per-line step of `process_txt_handle`: blank lines and unparseable lines
contribute no row; a parsed record contributes exactly one row; parser or
arithmetic exceptions propagate. -/
noncomputable def rowsOfLines (fname : String) (width height : ℤ) (fps : ℚ) :
    List String → Except PyErr (List Row)
  | [] => .ok []
  | l :: rest =>
    if pyStripStr l = "" then rowsOfLines fname width height fps rest
    else
      match parse_label_line l with
      | .error e => .error e
      | .ok none => rowsOfLines fname width height fps rest
      | .ok (some rec) =>
        match rowOfRec fname width height fps rec with
        | .error e => .error e
        | .ok r =>
          match rowsOfLines fname width height fps rest with
          | .error e => .error e
          | .ok rs => .ok (r :: rs)

/-- Line separators of Python `str.splitlines` occurring in these label
files: LF, CR, vertical tab and form feed.  (The two-character sequence
`\r\n` then yields one extra blank line, which the per-line loop skips,
so splitting on single separators is row-equivalent.) -/
def isLineSep (c : Char) : Bool :=
  c = '\n' || c = '\r' || c = Char.ofNat 11 || c = Char.ofNat 12

/-- Splitting on a separator predicate, keeping empty segments. -/
def splitOnPred (p : Char → Bool) : List Char → List (List Char)
  | [] => [[]]
  | c :: rest =>
    let r := splitOnPred p rest
    if p c then [] :: r
    else
      match r with
      | g :: gs => (c :: g) :: gs
      | [] => [[c]]

/-- Model of `text.strip().splitlines()` (blank lines are skipped by the
per-line loop either way). -/
def linesOfText (text : String) : List String :=
  (splitOnPred isLineSep (pyStripChars text.data)).map (fun cs => ⟨cs⟩)

/-- Model of `process_txt_handle(filename_label, fh, ...)`: the handle is the
result of reading the stream (`Except` models a read/decode failure raised
at `fh.read()`), and every non-blank parseable line yields one row in line
order. -/
noncomputable def process_txt_handle (filename_label : String) (fh : Except PyErr String)
    (width height : ℤ) (fps : ℚ) : Except PyErr (List Row) :=
  match fh with
  | .error e => .error e
  | .ok text => rowsOfLines filename_label width height fps (linesOfText text)

/-- Lexicographic order on character lists by code point (models Python's
string comparison used by `sorted`). -/
def lexLe : List Char → List Char → Bool
  | [], _ => true
  | _ :: _, [] => false
  | a :: as, b :: bs =>
    if a.toNat < b.toNat then true
    else if b.toNat < a.toNat then false
    else lexLe as bs

/-- Lexicographic order on strings (by their character data). -/
def strLe (a b : String) : Bool :=
  lexLe a.data b.data

/-- Insert into a list sorted by `le` (helper for the model of `sorted`). -/
def insertLe {α : Type} (le : α → α → Bool) (x : α) : List α → List α
  | [] => [x]
  | y :: ys => if le x y then x :: y :: ys else y :: insertLe le x ys

/-- Insertion sort, the model of Python's `sorted` (the claims under
verification depend on the order of the result, not the algorithm). -/
def sortLe {α : Type} (le : α → α → Bool) : List α → List α
  | [] => []
  | x :: xs => insertLe le x (sortLe le xs)

/-- Case-insensitive `.txt` suffix test (models `name.lower().endswith('.txt')`). -/
def endsWithTxtCI (s : String) : Bool :=
  match (s.data.map lowerAscii).reverse with
  | 't' :: 'x' :: 't' :: '.' :: _ => true
  | _ => false

/-- One directory entry: its name and the result of opening and reading it
as UTF-8 text (`Except` models an open or decode failure). -/
structure DirEntry : Type where
  name : String
  content : Except PyErr String

/-- Per-file loop of `process_dir` over the already sorted selection: any
exception from a file (open, decode, or a parse/arithmetic error) is
caught and the file is skipped. -/
noncomputable def processDirFiles (width height : ℤ) (fps : ℚ) :
    List DirEntry → List Row
  | [] => []
  | e :: rest =>
    (match process_txt_handle e.name e.content width height fps with
      | .ok rs => rs
      | .error _ => []) ++ processDirFiles width height fps rest

/-- Model of `process_dir`: select `.txt` entries (case-insensitive), sort
them by name, process each, skipping any file that raises. -/
noncomputable def process_dir (entries : List DirEntry) (width height : ℤ)
    (fps : ℚ) : List Row :=
  processDirFiles width height fps
    (sortLe (fun a b => strLe a.name b.name)
      (entries.filter (fun e => endsWithTxtCI e.name)))

/-- One tar member: name, regular-file flag, and the result of
`tar.extractfile` (`none` when no stream is returned) where a returned
stream carries the result of reading and decoding its bytes. -/
structure TarMember : Type where
  name : String
  isfile : Bool
  extract : Option (Except PyErr String)

/-- Per-member loop of `process_archive` over the already sorted selection:
a member without a stream is skipped, but there is no exception handler,
so any read/decode or parse error propagates and aborts the archive. -/
noncomputable def processArchiveMembers (width height : ℤ) (fps : ℚ) :
    List TarMember → Except PyErr (List Row)
  | [] => .ok []
  | m :: rest =>
    match m.extract with
    | none => processArchiveMembers width height fps rest
    | some fh =>
      match process_txt_handle m.name fh width height fps with
      | .error e => .error e
      | .ok rs =>
        match processArchiveMembers width height fps rest with
        | .error e => .error e
        | .ok rs2 => .ok (rs ++ rs2)

/-- Model of `process_archive` on an opened archive: select regular `.txt`
members (case-insensitive), sort by member name, process each in turn with
no per-member error recovery. -/
noncomputable def process_archive (tar : List TarMember) (width height : ℤ)
    (fps : ℚ) : Except PyErr (List Row) :=
  processArchiveMembers width height fps
    (sortLe (fun a b => strLe a.name b.name)
      (tar.filter (fun m => m.isfile && endsWithTxtCI m.name)))

/-- CSV header: the nine column names, in order. -/
def csvHeader : List String :=
  ["filename", "frame", "time_s", "nose_x", "nose_y", "mouth_x", "mouth_y",
   "d_px", "d_norm"]

/-- Serialisation of one optional cell: `None` becomes the empty string,
a value is rendered by the given stringifier (Python `str`). -/
def cellOf {α : Type} (render : α → String) : Option α → String
  | none => ""
  | some v => render v

/-- Cells of one Output Row, in column order.  The stringifiers for the
three value kinds (integers, exact rationals, pixel distances) model
Python's `str` and are parameters: the claims are about cell structure and
emptiness, not about float formatting. -/
def cellsOf (renderZ : ℤ → String) (renderQ : ℚ → String)
    (renderF : PyFloat → String) (renderR : PyRVal → String) (r : Row) :
    List String :=
  [r.filename, cellOf renderZ r.frame, cellOf renderQ r.time_s,
   cellOf renderF r.nose_x, cellOf renderF r.nose_y,
   cellOf renderF r.mouth_x, cellOf renderF r.mouth_y,
   cellOf renderR r.d_px, cellOf renderR r.d_norm]

/-- Model of `write_csv`: one header record, then one record per row in
sequence order.  The CSV file is modelled as its list of records
(serialisation/quoting mechanics are out of scope per the spec). -/
def write_csv (renderZ : ℤ → String) (renderQ : ℚ → String)
    (renderF : PyFloat → String) (renderR : PyRVal → String)
    (rows : List Row) : List (List String) :=
  csvHeader :: rows.map (cellsOf renderZ renderQ renderF renderR)

/-- Archive loop of `main`: each archive argument is opened (`none` models
`tarfile.open` raising) and processed; rows are appended in argument
order; any failure propagates. -/
noncomputable def runArchives (width height : ℤ) (fps : ℚ) :
    List (Option (List TarMember)) → Except PyErr (List Row)
  | [] => .ok []
  | none :: _ => .error .tarOpenError
  | some tar :: rest =>
    match process_archive tar width height fps with
    | .error e => .error e
    | .ok rs =>
      match runArchives width height fps rest with
      | .error e => .error e
      | .ok rs2 => .ok (rs ++ rs2)

/-- Rows collected by `main` before the CSV write: directory rows first
(if a directory was supplied), then all archive rows in argument order. -/
noncomputable def mainRows (dir : Option (List DirEntry))
    (archives : List (Option (List TarMember))) (width height : ℤ)
    (fps : ℚ) : Except PyErr (List Row) :=
  let dirRows :=
    match dir with
    | none => []
    | some d => process_dir d width height fps
  match runArchives width height fps archives with
  | .error e => .error e
  | .ok archRows => .ok (dirRows ++ archRows)

/-- Model of `main` up to the CSV write: the single `write_csv` call happens
only after every input source has been fully consumed, so a failing source
yields an error and no CSV at all. -/
noncomputable def mainCsv (dir : Option (List DirEntry))
    (archives : List (Option (List TarMember))) (width height : ℤ) (fps : ℚ)
    (renderZ : ℤ → String) (renderQ : ℚ → String) (renderF : PyFloat → String)
    (renderR : PyRVal → String) : Except PyErr (List (List String)) :=
  match mainRows dir archives width height fps with
  | .error e => .error e
  | .ok rows => .ok (write_csv renderZ renderQ renderF renderR rows)

/-! ### Helper lemmas -/

/-- `mapOpt` preserves length on success. -/
theorem mapOpt_length {α β : Type} (f : α → Option β) :
    ∀ (l : List α) (bs : List β), mapOpt f l = some bs → bs.length = l.length := by
  intro l
  induction l with
  | nil =>
    intro bs h
    simp only [mapOpt, Option.some.injEq] at h
    simp [← h]
  | cons a t ih =>
    intro bs h
    simp only [mapOpt] at h
    cases hfa : f a with
    | none => rw [hfa] at h; simp at h
    | some b =>
      rw [hfa] at h
      cases hml : mapOpt f t with
      | none => rw [hml] at h; simp at h
      | some bs2 =>
        rw [hml] at h
        simp only [Option.some.injEq] at h
        subst h
        simp [ih bs2 hml]

/-- A list of length at least five starts with five explicit elements. -/
theorem exists_five_cons {α : Type} :
    ∀ l : List α, 5 ≤ l.length → ∃ a b c d e t, l = a :: b :: c :: d :: e :: t
  | a :: b :: c :: d :: e :: t, _ => ⟨a, b, c, d, e, t, rfl⟩
  | [], h => absurd h (by simp)
  | [_], h => absurd h (by simp)
  | [_, _], h => absurd h (by simp)
  | [_, _, _], h => absurd h (by simp)
  | [_, _, _, _], h => absurd h (by simp)

/-- `chunk3` produces one triple per three input elements, dropping the tail. -/
theorem chunk3_length {α : Type} : ∀ l : List α, (chunk3 l).length = l.length / 3
  | [] => by simp [chunk3]
  | [_] => by simp [chunk3]
  | [_, _] => by simp [chunk3]
  | _ :: _ :: _ :: t => by
    simp only [chunk3, List.length_cons, chunk3_length t]
    omega

/-- `chunk2` produces one pair per two input elements, dropping the tail. -/
theorem chunk2_length {α : Type} : ∀ l : List α, (chunk2 l).length = l.length / 2
  | [] => by simp [chunk2]
  | [_] => by simp [chunk2]
  | _ :: _ :: t => by
    simp only [chunk2, List.length_cons, chunk2_length t]
    omega

/-- Element `i` of `chunk3 l` is made of input elements `3i`, `3i+1`, `3i+2`,
with the third as a present confidence. -/
theorem chunk3_get {α : Type} :
    ∀ (l : List α) (i : ℕ), i < (chunk3 l).length →
      ∃ x y c, (chunk3 l)[i]? = some (x, y, some c) ∧
        l[3 * i]? = some x ∧ l[3 * i + 1]? = some y ∧ l[3 * i + 2]? = some c
  | [], _, h => absurd h (by simp [chunk3])
  | [_], _, h => absurd h (by simp [chunk3])
  | [_, _], _, h => absurd h (by simp [chunk3])
  | x :: y :: c :: _, 0, _ =>
    ⟨x, y, c, by simp [chunk3], by simp, by simp, by simp⟩
  | x :: y :: c :: t, i + 1, h => by
    have h2 : i < (chunk3 t).length := by
      simp only [chunk3, List.length_cons] at h
      omega
    obtain ⟨a, b, d, h1, hx, hy, hc⟩ := chunk3_get t i h2
    refine ⟨a, b, d, ?_, ?_, ?_, ?_⟩
    · simpa [chunk3] using h1
    · have e : 3 * (i + 1) = 3 * i + 1 + 1 + 1 := by ring
      rw [e]
      simpa using hx
    · have e : 3 * (i + 1) + 1 = 3 * i + 1 + 1 + 1 + 1 := by ring
      rw [e]
      simpa using hy
    · have e : 3 * (i + 1) + 2 = 3 * i + 2 + 1 + 1 + 1 := by ring
      rw [e]
      simpa using hc

/-- Element `i` of `chunk2 l` is made of input elements `2i`, `2i+1`,
with an absent confidence. -/
theorem chunk2_get {α : Type} :
    ∀ (l : List α) (i : ℕ), i < (chunk2 l).length →
      ∃ x y, (chunk2 l)[i]? = some (x, y, none) ∧
        l[2 * i]? = some x ∧ l[2 * i + 1]? = some y
  | [], _, h => absurd h (by simp [chunk2])
  | [_], _, h => absurd h (by simp [chunk2])
  | x :: y :: _, 0, _ => ⟨x, y, by simp [chunk2], by simp, by simp⟩
  | x :: y :: t, i + 1, h => by
    have h2 : i < (chunk2 t).length := by
      simp only [chunk2, List.length_cons] at h
      omega
    obtain ⟨a, b, h1, hx, hy⟩ := chunk2_get t i h2
    refine ⟨a, b, ?_, ?_, ?_⟩
    · simpa [chunk2] using h1
    · have e : 2 * (i + 1) = 2 * i + 1 + 1 := by ring
      rw [e]
      simpa using hx
    · have e : 2 * (i + 1) + 1 = 2 * i + 1 + 1 + 1 := by ring
      rw [e]
      simpa using hy

/-! ### C1: token-count routing of the keypoint grouping -/

/-- Characterisation (claim C1) of how the remainder tokens after the first
five are grouped into keypoints, by priority: empty, multiple of 3,
multiple of 2, odd remainder with the last token dropped. -/
def kpsRouting (rem : List PyFloat)
    (kps : List (PyFloat × PyFloat × Option PyFloat)) : Prop :=
  (rem = [] → kps = []) ∧
  (rem ≠ [] → rem.length % 3 = 0 →
    kps.length = rem.length / 3 ∧
    ∀ i, i < rem.length / 3 →
      ∃ x y c, kps[i]? = some (x, y, some c) ∧
        rem[3 * i]? = some x ∧ rem[3 * i + 1]? = some y ∧
        rem[3 * i + 2]? = some c) ∧
  (rem.length % 3 ≠ 0 → rem.length % 2 = 0 →
    kps.length = rem.length / 2 ∧
    ∀ i, i < rem.length / 2 →
      ∃ x y, kps[i]? = some (x, y, none) ∧
        rem[2 * i]? = some x ∧ rem[2 * i + 1]? = some y) ∧
  (rem.length % 3 ≠ 0 → rem.length % 2 = 1 →
    kps.length = rem.length / 2 ∧
    ∀ i, i < rem.length / 2 →
      ∃ x y, kps[i]? = some (x, y, none) ∧
        rem[2 * i]? = some x ∧ rem[2 * i + 1]? = some y)

/-- The grouping branches of `parse_label_line` satisfy the routing
characterisation: empty remainder and the `chunk3`/`chunk2` selections. -/
theorem kpsRouting_select (rem : List PyFloat) :
    kpsRouting rem
      (if rem.isEmpty then []
       else if rem.length % 3 = 0 then chunk3 rem else chunk2 rem) := by
  by_cases hre : rem = []
  · subst hre
    exact ⟨fun _ => by simp, fun h => absurd rfl h,
      fun hx _ => absurd (by decide) hx, fun hx _ => absurd (by decide) hx⟩
  · rw [if_neg (by simpa [List.isEmpty_iff] using hre)]
    by_cases h3 : rem.length % 3 = 0
    · rw [if_pos h3]
      refine ⟨fun h => absurd h hre, fun _ _ => ?_, fun h _ => absurd h3 h,
        fun h _ => absurd h3 h⟩
      refine ⟨chunk3_length rem, fun i hi => ?_⟩
      exact chunk3_get rem i (by rw [chunk3_length]; exact hi)
    · rw [if_neg h3]
      refine ⟨fun h => absurd h hre, fun _ h => absurd h h3, fun _ _ => ?_,
        fun _ _ => ?_⟩
        <;> exact ⟨chunk2_length rem, fun i hi => chunk2_get rem i
          (by rw [chunk2_length]; exact hi)⟩

/-- C1: for every input line whose tokens all convert to finite floats and
which has at least five tokens, `parse_label_line` yields a record whose
keypoints are grouped from the tokens after the first five by the priority
order: empty → none; multiple of 3 → triplets with confidence present;
multiple of 2 → pairs with absent confidence; odd → pairs with the final
unpaired token dropped. -/
theorem c1_token_count_routing (line : String) (vals : List PyFloat)
    (hconv : mapOpt strToFloat (pySplitTokens (pyStripStr line)) = some vals)
    (hnum : vals.all PyFloat.isFinite = true) (hlen : 5 ≤ vals.length) :
    ∃ r : DetRec, parse_label_line line = .ok (some r) ∧
      kpsRouting (vals.drop 5) r.kps := by
  obtain ⟨v0, v1, v2, v3, v4, rem, rfl⟩ := exists_five_cons vals hlen
  have hlen' : ¬ (pySplitTokens (pyStripStr line)).length < 5 := by
    have := mapOpt_length strToFloat _ _ hconv
    omega
  obtain ⟨q, rfl⟩ : ∃ q : ℚ, v0 = .pfin q := by
    have h0 := List.all_eq_true.mp hnum v0 (by simp)
    cases v0 with
    | pfin q => exact ⟨q, rfl⟩
    | pinf => simp [PyFloat.isFinite] at h0
    | pninf => simp [PyFloat.isFinite] at h0
    | pnan => simp [PyFloat.isFinite] at h0
  have hdrop : (PyFloat.pfin q :: v1 :: v2 :: v3 :: v4 :: rem).drop 5 = rem := rfl
  rw [hdrop]
  have hsel := kpsRouting_select rem
  unfold parse_label_line
  rw [if_neg hlen', hconv]
  simp only [pyInt]
  by_cases hre : rem.isEmpty
  · rw [if_pos hre]
    exact ⟨_, rfl, by simpa [hre] using hsel⟩
  · rw [if_neg hre]
    by_cases h3 : rem.length % 3 = 0
    · rw [if_pos h3]
      exact ⟨_, rfl, by simpa [hre, h3] using hsel⟩
    · rw [if_neg h3]
      by_cases h2 : rem.length % 2 = 0
      · rw [if_pos h2]
        exact ⟨_, rfl, by simpa [hre, h3] using hsel⟩
      · rw [if_neg h2]
        exact ⟨_, rfl, by simpa [hre, h3] using hsel⟩

/-- Witness for C1 at the concrete line `"0 0 0 0 0 1 2 3 4 5 6"`
(six remainder tokens, so two full triplets with confidence present). -/
theorem c1_token_count_routing_witness :
    ∃ r : DetRec, parse_label_line "0 0 0 0 0 1 2 3 4 5 6" = .ok (some r) ∧
      kpsRouting [.pfin 1, .pfin 2, .pfin 3, .pfin 4, .pfin 5, .pfin 6] r.kps := by
  have h := c1_token_count_routing "0 0 0 0 0 1 2 3 4 5 6"
    [.pfin 0, .pfin 0, .pfin 0, .pfin 0, .pfin 0,
     .pfin 1, .pfin 2, .pfin 3, .pfin 4, .pfin 5, .pfin 6]
    (by decide) (by decide) (by decide)
  simpa using h

/-! ### C2: parser error behaviour -/

/-- C2 (counterexample to "never raises"): the line `"nan 0 0 0 0"` has five
tokens, all `float`-convertible, but `int(float('nan'))` raises an uncaught
`ValueError`, so `parse_label_line` raises instead of skipping. -/
theorem c2_counterexample :
    parse_label_line "nan 0 0 0 0" = .error .valueError := rfl

/-- C2 (amended): `parse_label_line` silently skips lines with fewer than
five tokens or with a token that does not convert to a float, and returns a
record when the first token converts to a finite float; the only raising
inputs are lines of at least five convertible tokens whose first token
converts to an infinity (`OverflowError`) or NaN (`ValueError`). -/
theorem c2_parse_outcome_characterisation (line : String) :
    ((pySplitTokens (pyStripStr line)).length < 5 →
      parse_label_line line = .ok none) ∧
    (mapOpt strToFloat (pySplitTokens (pyStripStr line)) = none →
      parse_label_line line = .ok none) ∧
    (∀ vals, ∀ q : ℚ,
      mapOpt strToFloat (pySplitTokens (pyStripStr line)) = some vals →
      5 ≤ vals.length → vals.head? = some (.pfin q) →
      ∃ r, parse_label_line line = .ok (some r)) ∧
    (∀ vals,
      mapOpt strToFloat (pySplitTokens (pyStripStr line)) = some vals →
      5 ≤ vals.length →
      (vals.head? = some .pinf ∨ vals.head? = some .pninf) →
      parse_label_line line = .error .overflowError) ∧
    (∀ vals,
      mapOpt strToFloat (pySplitTokens (pyStripStr line)) = some vals →
      5 ≤ vals.length → vals.head? = some .pnan →
      parse_label_line line = .error .valueError) := by
  refine ⟨fun hlt => ?_, fun hnone => ?_, fun vals q hconv hlen hhead => ?_,
    fun vals hconv hlen hhead => ?_, fun vals hconv hlen hhead => ?_⟩
  · unfold parse_label_line
    rw [if_pos hlt]
  · unfold parse_label_line
    by_cases hlt : (pySplitTokens (pyStripStr line)).length < 5
    · rw [if_pos hlt]
    · rw [if_neg hlt, hnone]
  · have hlt : ¬ (pySplitTokens (pyStripStr line)).length < 5 := by
      have := mapOpt_length strToFloat _ _ hconv
      omega
    obtain ⟨v0, v1, v2, v3, v4, rem, rfl⟩ := exists_five_cons vals hlen
    have hv0 : v0 = .pfin q := by simpa using hhead
    subst hv0
    unfold parse_label_line
    rw [if_neg hlt, hconv]
    simp only [pyInt]
    by_cases hre : rem.isEmpty
    · rw [if_pos hre]; exact ⟨_, rfl⟩
    · rw [if_neg hre]
      by_cases h3 : rem.length % 3 = 0
      · rw [if_pos h3]; exact ⟨_, rfl⟩
      · rw [if_neg h3]
        by_cases h2 : rem.length % 2 = 0
        · rw [if_pos h2]; exact ⟨_, rfl⟩
        · rw [if_neg h2]; exact ⟨_, rfl⟩
  · have hlt : ¬ (pySplitTokens (pyStripStr line)).length < 5 := by
      have := mapOpt_length strToFloat _ _ hconv
      omega
    obtain ⟨v0, v1, v2, v3, v4, rem, rfl⟩ := exists_five_cons vals hlen
    unfold parse_label_line
    rw [if_neg hlt, hconv]
    rcases hhead with h | h
    · have hv0 : v0 = .pinf := by simpa using h
      subst hv0
      rfl
    · have hv0 : v0 = .pninf := by simpa using h
      subst hv0
      rfl
  · have hlt : ¬ (pySplitTokens (pyStripStr line)).length < 5 := by
      have := mapOpt_length strToFloat _ _ hconv
      omega
    obtain ⟨v0, v1, v2, v3, v4, rem, rfl⟩ := exists_five_cons vals hlen
    have hv0 : v0 = .pnan := by simpa using hhead
    subst hv0
    unfold parse_label_line
    rw [if_neg hlt, hconv]
    rfl

/-- Witness for C2 at concrete lines: a short line and a non-numeric line
are skipped, a finite-class line yields a record, an `inf` class raises
`OverflowError`, an out-of-range literal class (`1e999`, which `float`
overflows to infinity) also raises `OverflowError`, and an
underscore-grouped class literal (`1_0` = 10.0) yields a record. -/
theorem c2_parse_outcome_characterisation_witness :
    parse_label_line "1 2 3 4" = .ok none ∧
    parse_label_line "a b c d e" = .ok none ∧
    (∃ r, parse_label_line "7 0 0 0 0" = .ok (some r)) ∧
    parse_label_line "inf 0 0 0 0" = .error .overflowError ∧
    parse_label_line "1e999 0 0 0 0" = .error .overflowError ∧
    (∃ r, parse_label_line "1_0 1 2 3 4" = .ok (some r)) :=
  ⟨(c2_parse_outcome_characterisation "1 2 3 4").1 (by decide),
   (c2_parse_outcome_characterisation "a b c d e").2.1 (by decide),
   (c2_parse_outcome_characterisation "7 0 0 0 0").2.2.1
     [.pfin 7, .pfin 0, .pfin 0, .pfin 0, .pfin 0] 7 (by decide) (by decide)
     (by decide),
   (c2_parse_outcome_characterisation "inf 0 0 0 0").2.2.2.1
     [.pinf, .pfin 0, .pfin 0, .pfin 0, .pfin 0] (by decide) (by decide)
     (Or.inl (by decide)),
   (c2_parse_outcome_characterisation "1e999 0 0 0 0").2.2.2.1
     [.pinf, .pfin 0, .pfin 0, .pfin 0, .pfin 0] (by decide) (by decide)
     (Or.inl (by decide)),
   (c2_parse_outcome_characterisation "1_0 1 2 3 4").2.2.1
     [.pfin 10, .pfin 1, .pfin 2, .pfin 3, .pfin 4] 10 (by decide) (by decide)
     (by decide)⟩

/-! ### C6: frame-index extraction -/

/-- Lists ending in a singleton are equal iff their fronts and last
elements are. -/
theorem append_singleton_inj {α : Type} {l1 l2 : List α} {a b : α}
    (h : l1 ++ [a] = l2 ++ [b]) : l1 = l2 ∧ a = b := by
  have h2 := congrArg List.reverse h
  simp only [List.reverse_append, List.reverse_cons, List.reverse_nil,
    List.nil_append, List.singleton_append, List.cons.injEq] at h2
  exact ⟨List.reverse_injective h2.2, h2.1⟩

/-- `takeWhile` of a list all of whose elements satisfy the predicate. -/
theorem takeWhile_eq_self_of_all {α : Type} (p : α → Bool) :
    ∀ l : List α, l.all p = true → l.takeWhile p = l
  | [], _ => rfl
  | a :: t, h => by
    simp only [List.all_cons, Bool.and_eq_true] at h
    simp [List.takeWhile_cons, h.1, takeWhile_eq_self_of_all p t h.2]

/-- If some element fails the predicate, `takeWhile` ignores the last
element. -/
theorem takeWhile_dropLast_of_not_all {α : Type} (p : α → Bool) :
    ∀ l : List α, ¬ l.all p = true → l.takeWhile p = l.dropLast.takeWhile p
  | [], h => absurd rfl h
  | a :: t, h => by
    by_cases hpa : p a
    · have hne : t ≠ [] := by
        rintro rfl
        exact h (by simp [hpa])
      have hnat : ¬ t.all p = true := by
        intro hall
        exact h (by simp [hpa, hall])
      have hdl : (a :: t).dropLast = a :: t.dropLast := by
        cases t with
        | nil => exact absurd rfl hne
        | cons b u => rfl
      rw [hdl]
      simp [List.takeWhile_cons, hpa, takeWhile_dropLast_of_not_all p t hnat]
    · cases t with
      | nil => simp [List.takeWhile_cons, hpa]
      | cons b u =>
        have hdl : (a :: b :: u).dropLast = a :: (b :: u).dropLast := rfl
        rw [hdl]
        simp [List.takeWhile_cons, hpa]

/-- Unfolding of the Boolean match test into its three conditions. -/
theorem matchesHere_iff (t : List Char) :
    matchesHere t = true ↔
      (t.reverse.take 4 = ['t', 'x', 't', '.'] ∧ t.reverse.drop 4 ≠ [] ∧
        (t.reverse.drop 4).all isDigitCh = true) := by
  unfold matchesHere
  simp only [Bool.and_eq_true, decide_eq_true_eq, ne_eq]
  tauto

/-- Where the regex matches, the trailing-run reading returns the digit
group of that match. -/
theorem trailTxtVal_of_matchesHere (cs : List Char)
    (hm : matchesHere cs = true) :
    trailTxtVal cs = some (natOfDigits (groupHere cs)) := by
  obtain ⟨h1, h3, h2⟩ := (matchesHere_iff cs).mp hm
  unfold trailTxtVal
  rw [if_pos h1]
  rw [takeWhile_eq_self_of_all _ _ h2, if_neg h3]
  rfl

/-- Where the regex does not match at the head position, dropping the head
character does not change the trailing-run reading. -/
theorem trailTxtVal_cons_of_not (c : Char) (t : List Char)
    (hm : matchesHere (c :: t) = false) :
    trailTxtVal (c :: t) = trailTxtVal t := by
  have hrev : (c :: t).reverse = t.reverse ++ [c] := by simp
  have hmne : matchesHere (c :: t) ≠ true := by simp [hm]
  have hmp : ¬ ((c :: t).reverse.take 4 = ['t', 'x', 't', '.'] ∧
      (c :: t).reverse.drop 4 ≠ [] ∧
      ((c :: t).reverse.drop 4).all isDigitCh = true) :=
    fun hp => hmne ((matchesHere_iff (c :: t)).mpr hp)
  by_cases h1 : (c :: t).reverse.take 4 = ['t', 'x', 't', '.']
  · have hdecomp : (c :: t).reverse = ['t', 'x', 't', '.'] ++
        (c :: t).reverse.drop 4 := by
      conv_lhs => rw [← List.take_append_drop 4 (c :: t).reverse]
      rw [h1]
    by_cases hre : (c :: t).reverse.drop 4 = []
    · have hpat : t.reverse ++ [c] = ['t', 'x', 't'] ++ ['.'] := by
        rw [← hrev, hdecomp, hre]
        rfl
      have ht : t.reverse = ['t', 'x', 't'] := (append_singleton_inj hpat).1
      have hLHS : trailTxtVal (c :: t) = none := by
        unfold trailTxtVal
        rw [if_pos h1, hre]
        simp
      have hRHS : trailTxtVal t = none := by
        unfold trailTxtVal
        rw [if_neg (by rw [ht]; decide)]
      rw [hLHS, hRHS]
    · have hnotall : ¬ ((c :: t).reverse.drop 4).all isDigitCh = true :=
        fun hall => hmp ⟨h1, hre, hall⟩
      obtain ⟨rs, b, hrest⟩ : ∃ rs b,
          (c :: t).reverse.drop 4 = rs ++ [b] := by
        rcases hback : ((c :: t).reverse.drop 4).reverse with _ | ⟨b, rs⟩
        · exact absurd (by simpa using congrArg List.reverse hback) hre
        · exact ⟨rs.reverse, b, by
            have h6 := congrArg List.reverse hback
            simpa using h6⟩
      have hfront : t.reverse = ['t', 'x', 't', '.'] ++ rs ∧ c = b := by
        apply append_singleton_inj
        rw [← hrev, hdecomp, hrest]
        simp
      have htk : t.reverse.take 4 = ['t', 'x', 't', '.'] := by
        rw [hfront.1]
        rfl
      have htd : t.reverse.drop 4 = rs := by
        rw [hfront.1]
        rfl
      have hdla : ((c :: t).reverse.drop 4).dropLast = rs := by
        rw [hrest]
        exact List.dropLast_concat ..
      have hsame : ((c :: t).reverse.drop 4).takeWhile isDigitCh =
          (t.reverse.drop 4).takeWhile isDigitCh := by
        rw [takeWhile_dropLast_of_not_all isDigitCh _ hnotall, hdla, htd]
      unfold trailTxtVal
      rw [if_pos h1, if_pos htk, hsame]
  · have h1t : ¬ t.reverse.take 4 = ['t', 'x', 't', '.'] := by
      intro hq
      apply h1
      have hlen : 4 ≤ t.reverse.length := by
        by_contra hlt
        push_neg at hlt
        have h8 : t.reverse.take 4 = t.reverse :=
          List.take_of_length_le (by omega)
        rw [h8] at hq
        have h9 := congrArg List.length hq
        simp only [List.length_cons, List.length_nil] at h9
        omega
      rw [hrev, List.take_append_of_le_length hlen, hq]
    unfold trailTxtVal
    rw [if_neg h1, if_neg h1t]

/-- The leftmost match of the end-anchored pattern `\d+\.txt$` is exactly
the maximal trailing digit run before a final `.txt`. -/
theorem searchFrameRe_eq_trailTxtVal :
    ∀ cs : List Char, searchFrameRe cs = trailTxtVal cs
  | [] => by decide
  | c :: t => by
    rw [searchFrameRe]
    by_cases hm : matchesHere (c :: t) = true
    · rw [if_pos hm, trailTxtVal_of_matchesHere _ hm]
    · have hm2 : matchesHere (c :: t) = false := by
        simpa using hm
      rw [if_neg (by simp [hm2]), searchFrameRe_eq_trailTxtVal t,
        trailTxtVal_cons_of_not c t hm2]

/-- C6: the Frame Indexer implements exactly the claimed policy — trailing
digits immediately before `.txt` in the basename, else an all-digit final
underscore segment of the extension-stripped basename, else absent — and
the three claimed examples hold.  The function is total (never raises). -/
theorem c6_frame_index_policy :
    (∀ fname : String, extract_frame_index fname = frameIndexSpec fname) ∧
    extract_frame_index "video_00042.txt" = some 42 ∧
    extract_frame_index "clip_7.txt" = some 7 ∧
    extract_frame_index "nope.txt" = none := by
  refine ⟨fun fname => ?_, by decide, by decide, by decide⟩
  simp only [extract_frame_index, frameIndexSpec, searchFrameRe_eq_trailTxtVal]

/-! ### C3: presence pairing of coordinates and distances -/

/-- All six coordinate/distance fields of a row are present. -/
def sixPresent (r : Row) : Prop :=
  r.nose_x.isSome = true ∧ r.nose_y.isSome = true ∧ r.mouth_x.isSome = true ∧
    r.mouth_y.isSome = true ∧ r.d_px.isSome = true ∧ r.d_norm.isSome = true

/-- All six coordinate/distance fields of a row are absent. -/
def sixAbsent (r : Row) : Prop :=
  r.nose_x = none ∧ r.nose_y = none ∧ r.mouth_x = none ∧ r.mouth_y = none ∧
    r.d_px = none ∧ r.d_norm = none

/-- The Row Assembler produces either a row with all six fields present
(at least two keypoints) or a row with all six absent (fewer than two). -/
theorem rowOfRec_cases (fname : String) (w h : ℤ) (fps : ℚ) (rec : DetRec)
    (row : Row) (hok : rowOfRec fname w h fps rec = .ok row) :
    (sixPresent row ∧ 2 ≤ rec.kps.length) ∨
      (sixAbsent row ∧ rec.kps.length < 2) := by
  unfold rowOfRec at hok
  rcases hk : rec.kps with _ | ⟨⟨nx, ny, nc⟩, _ | ⟨⟨mx, my, mc⟩, ktail⟩⟩
  · rw [hk] at hok
    dsimp only at hok
    simp only [Except.ok.injEq] at hok
    subst hok
    exact Or.inr ⟨⟨rfl, rfl, rfl, rfl, rfl, rfl⟩, by simp [hk]⟩
  · rw [hk] at hok
    dsimp only at hok
    simp only [Except.ok.injEq] at hok
    subst hok
    exact Or.inr ⟨⟨rfl, rfl, rfl, rfl, rfl, rfl⟩, by simp [hk]⟩
  · rw [hk] at hok
    dsimp only at hok
    cases hdn : d_norm_of
        (pyHypot
          (pfSub (norm_to_px nx ny w h).1 (norm_to_px mx my w h).1)
          (pfSub (norm_to_px nx ny w h).2 (norm_to_px mx my w h).2)) w h with
    | error e =>
      rw [hdn] at hok
      exact Except.noConfusion hok
    | ok dn =>
      rw [hdn] at hok
      simp only [Except.ok.injEq] at hok
      subst hok
      exact Or.inl ⟨⟨rfl, rfl, rfl, rfl, rfl, rfl⟩, by simp [hk]⟩

/-- Every row in a successful `rowsOfLines` run comes from the Row Assembler
applied to some parsed record. -/
theorem rowsOfLines_mem (fname : String) (w h : ℤ) (fps : ℚ) :
    ∀ (lines : List String) (rows : List Row),
      rowsOfLines fname w h fps lines = .ok rows →
      ∀ r ∈ rows, ∃ rec, rowOfRec fname w h fps rec = .ok r := by
  intro lines
  induction lines with
  | nil =>
    intro rows hok r hr
    simp only [rowsOfLines, Except.ok.injEq] at hok
    subst hok
    simp at hr
  | cons l rest ih =>
    intro rows hok r hr
    simp only [rowsOfLines] at hok
    by_cases hb : pyStripStr l = ""
    · rw [if_pos hb] at hok
      exact ih rows hok r hr
    · rw [if_neg hb] at hok
      cases hp : parse_label_line l with
      | error e =>
        rw [hp] at hok
        exact Except.noConfusion hok
      | ok orec =>
        rw [hp] at hok
        cases orec with
        | none =>
          dsimp only at hok
          exact ih rows hok r hr
        | some rec =>
          dsimp only at hok
          cases hro : rowOfRec fname w h fps rec with
          | error e =>
            rw [hro] at hok
            exact Except.noConfusion hok
          | ok r0 =>
            rw [hro] at hok
            dsimp only at hok
            cases hrest : rowsOfLines fname w h fps rest with
            | error e =>
              rw [hrest] at hok
              exact Except.noConfusion hok
            | ok rs =>
              rw [hrest] at hok
              simp only [Except.ok.injEq] at hok
              subst hok
              rcases List.mem_cons.mp hr with rfl | hr2
              · exact ⟨rec, hro⟩
              · exact ih rs hrest r hr2

/-- C3: in every row the pipeline outputs, `d_px` is present iff all four
nose/mouth pixel coordinates are, and `d_norm` is present iff `d_px` is;
the six fields are jointly present or jointly absent, and (second part)
joint presence holds exactly when the parsed record had at least two
keypoints. -/
theorem c3_presence_pairing :
    (∀ (fname : String) (fh : Except PyErr String) (w h : ℤ) (fps : ℚ)
      (rows : List Row), process_txt_handle fname fh w h fps = .ok rows →
      ∀ r ∈ rows,
        (r.d_px.isSome = true ↔
          (r.nose_x.isSome = true ∧ r.nose_y.isSome = true ∧
           r.mouth_x.isSome = true ∧ r.mouth_y.isSome = true)) ∧
        (r.d_norm.isSome = true ↔ r.d_px.isSome = true) ∧
        (sixPresent r ∨ sixAbsent r)) ∧
    (∀ (fname : String) (w h : ℤ) (fps : ℚ) (rec : DetRec) (row : Row),
      rowOfRec fname w h fps rec = .ok row →
      (sixPresent row ↔ 2 ≤ rec.kps.length)) := by
  constructor
  · intro fname fh w h fps rows hok r hr
    have hrec : ∃ rec, rowOfRec fname w h fps rec = .ok r := by
      cases fh with
      | error e =>
        exact Except.noConfusion hok
      | ok text =>
        exact rowsOfLines_mem fname w h fps (linesOfText text) rows hok r hr
    obtain ⟨rec, hro⟩ := hrec
    rcases rowOfRec_cases fname w h fps rec r hro with ⟨hp, _⟩ | ⟨ha, _⟩
    · obtain ⟨h1, h2, h3, h4, h5, h6⟩ := hp
      exact ⟨by simp [h1, h2, h3, h4, h5],
        by simp [h5, h6], Or.inl ⟨h1, h2, h3, h4, h5, h6⟩⟩
    · obtain ⟨h1, h2, h3, h4, h5, h6⟩ := ha
      exact ⟨by simp [h1, h2, h3, h4, h5],
        by simp [h5, h6], Or.inr ⟨h1, h2, h3, h4, h5, h6⟩⟩
  · intro fname w h fps rec row hok
    rcases rowOfRec_cases fname w h fps rec row hok with ⟨hp, hk⟩ | ⟨ha, hk⟩
    · exact ⟨fun _ => hk, fun _ => hp⟩
    · refine ⟨fun hsix => ?_, fun hk2 => absurd hk2 (by omega)⟩
      obtain ⟨h1, _⟩ := hsix
      rw [ha.1] at h1
      simp at h1

/-- Witness for C3: a five-token line yields exactly one row with all six
coordinate/distance fields absent, satisfying the pairing invariant. -/
theorem c3_presence_pairing_witness :
    ((⟨"a.txt", none, none, none, none, none, none, none, none⟩ :
        Row).d_px.isSome = true ↔
      ((⟨"a.txt", none, none, none, none, none, none, none, none⟩ :
        Row).nose_x.isSome = true ∧
       (⟨"a.txt", none, none, none, none, none, none, none, none⟩ :
        Row).nose_y.isSome = true ∧
       (⟨"a.txt", none, none, none, none, none, none, none, none⟩ :
        Row).mouth_x.isSome = true ∧
       (⟨"a.txt", none, none, none, none, none, none, none, none⟩ :
        Row).mouth_y.isSome = true)) ∧
    ((⟨"a.txt", none, none, none, none, none, none, none, none⟩ :
        Row).d_norm.isSome = true ↔
      (⟨"a.txt", none, none, none, none, none, none, none, none⟩ :
        Row).d_px.isSome = true) ∧
    (sixPresent ⟨"a.txt", none, none, none, none, none, none, none, none⟩ ∨
     sixAbsent ⟨"a.txt", none, none, none, none, none, none, none, none⟩) :=
  c3_presence_pairing.1 "a.txt" (.ok "0 0 0 0 0") 1 1 1
    [⟨"a.txt", none, none, none, none, none, none, none, none⟩] rfl
    ⟨"a.txt", none, none, none, none, none, none, none, none⟩
    (List.mem_singleton.mpr rfl)

/-! ### C9: concrete distance computation and affine denormalisation -/

/-- C9: for a record with normalised nose `(0.5, 0.5)` and mouth
`(0.5, 0.6)` at width 1080 and height 1920, the Metric Calculator yields
`noseY = 960`, `mouthY = 1152`, `distancePixels = 192` and
`distanceNormalized = 192 / hypot 1080 1920`; and denormalisation is the
plain affine scale `(x * width, y * height)` with no clamping or rounding. -/
theorem c9_distance_correctness :
    (∃ row : Row,
      rowOfRec "f.txt" 1080 1920 30
        ⟨0, .pfin 0, .pfin 0, .pfin 0, .pfin 0,
          [(.pfin (1 / 2), .pfin (1 / 2), none),
           (.pfin (1 / 2), .pfin (3 / 5), none)]⟩ = .ok row ∧
      row.nose_x = some (.pfin 540) ∧
      row.nose_y = some (.pfin 960) ∧
      row.mouth_x = some (.pfin 540) ∧
      row.mouth_y = some (.pfin 1152) ∧
      row.d_px = some (.rfin 192) ∧
      row.d_norm = some (.rfin
        (192 / Real.sqrt ((1080 : ℝ) ^ 2 + (1920 : ℝ) ^ 2)))) ∧
    (∀ (x y : ℚ) (w h : ℤ),
      norm_to_px (.pfin x) (.pfin y) w h =
        (.pfin (x * (w : ℚ)), .pfin (y * (h : ℚ)))) := by
  refine ⟨⟨_, rfl, ?_, ?_, ?_, ?_, ?_, ?_⟩, fun x y w h => rfl⟩
  · dsimp only [norm_to_px, pfMul]
    norm_num
  · dsimp only [norm_to_px, pfMul]
    norm_num
  · dsimp only [norm_to_px, pfMul]
    norm_num
  · dsimp only [norm_to_px, pfMul]
    norm_num
  · dsimp only [norm_to_px, pfMul, pfSub, pyHypot]
    norm_num
    rw [show (36864 : ℝ) = 192 ^ 2 by norm_num]
    exact Real.sqrt_sq (by norm_num)
  · dsimp only [norm_to_px, pfMul, pfSub, pyHypot]
    norm_num
    rw [show (36864 : ℝ) = 192 ^ 2 by norm_num,
      Real.sqrt_sq (by norm_num : (0 : ℝ) ≤ 192)]

/-! ### C10: confidence values never influence the output -/

/-- Forget the confidence component of every keypoint. -/
def stripConf (kps : List (PyFloat × PyFloat × Option PyFloat)) :
    List (PyFloat × PyFloat) :=
  kps.map (fun t => (t.1, t.2.1))

/-- `chunk3` yields empty output on fewer than three elements. -/
theorem chunk3_eq_nil_of_short {α : Type} :
    ∀ l : List α, l.length < 3 → chunk3 l = []
  | [], _ => by simp [chunk3]
  | [_], _ => by simp [chunk3]
  | [_, _], _ => by simp [chunk3]
  | _ :: _ :: _ :: _, h => absurd h (by simp)

/-- Two lists of equal length that agree outside the confidence positions
(index ≡ 2 mod 3) produce `chunk3` groupings with the same coordinates. -/
theorem chunk3_stripConf :
    ∀ l1 l2 : List PyFloat, l1.length = l2.length →
      (∀ i, i < l1.length → i % 3 ≠ 2 → l1[i]? = l2[i]?) →
      stripConf (chunk3 l1) = stripConf (chunk3 l2)
  | [], l2, hlen, _ => by
    have h0 : l2.length = 0 := by simpa using hlen.symm
    rw [chunk3_eq_nil_of_short l2 (by omega),
      chunk3_eq_nil_of_short [] (by simp)]
  | [a], l2, hlen, _ => by
    have h0 : l2.length = 1 := by simpa using hlen.symm
    rw [chunk3_eq_nil_of_short l2 (by omega),
      chunk3_eq_nil_of_short [a] (by simp)]
  | [a, b], l2, hlen, _ => by
    have h0 : l2.length = 2 := by simpa using hlen.symm
    rw [chunk3_eq_nil_of_short l2 (by omega),
      chunk3_eq_nil_of_short [a, b] (by simp)]
  | x1 :: y1 :: c1 :: t1, l2, hlen, hxy => by
    obtain ⟨x2, y2, c2, t2, rfl⟩ :
        ∃ x2 y2 c2 t2, l2 = x2 :: y2 :: c2 :: t2 := by
      match l2, hlen with
      | x2 :: y2 :: c2 :: t2, _ => exact ⟨x2, y2, c2, t2, rfl⟩
      | [], hlen => simp at hlen
      | [_], hlen => simp at hlen
      | [_, _], hlen => simp at hlen
    have hx : x1 = x2 := by
      have hh := hxy 0 (by simp) (by decide)
      simpa using hh
    have hy : y1 = y2 := by
      have hh := hxy 1 (by simp) (by decide)
      simpa using hh
    have ht : stripConf (chunk3 t1) = stripConf (chunk3 t2) := by
      refine chunk3_stripConf t1 t2 (by simpa using hlen) (fun i hi hm => ?_)
      have hh := hxy (i + 3) (by simp; omega) (by omega)
      have e : i + 3 = i + 1 + 1 + 1 := rfl
      rw [e] at hh
      simpa using hh
    simp only [chunk3, stripConf, List.map_cons] at ht ⊢
    rw [hx, hy]
    simpa [stripConf] using ht

/-- The Row Assembler only reads the coordinates of the first two
keypoints: records with the same confidence-stripped keypoints produce the
same result. -/
theorem rowOfRec_congr (fname : String) (w h : ℤ) (fps : ℚ)
    (rec1 rec2 : DetRec) (hs : stripConf rec1.kps = stripConf rec2.kps) :
    rowOfRec fname w h fps rec1 = rowOfRec fname w h fps rec2 := by
  unfold rowOfRec
  rcases h1 : rec1.kps with _ | ⟨⟨nx1, ny1, nc1⟩, _ | ⟨⟨mx1, my1, mc1⟩, t1⟩⟩ <;>
    rcases h2 : rec2.kps with _ | ⟨⟨nx2, ny2, nc2⟩, _ | ⟨⟨mx2, my2, mc2⟩, t2⟩⟩
  all_goals rw [h1, h2] at hs
  all_goals dsimp only
  all_goals simp_all [stripConf]

/-- A single non-blank line whose parse yields a record contributes exactly
the Row Assembler's output. -/
theorem rowsOfLines_single (fname : String) (w h : ℤ) (fps : ℚ) (l : String)
    (rec : DetRec) (hnb : ¬ pyStripStr l = "")
    (hp : parse_label_line l = .ok (some rec)) :
    rowsOfLines fname w h fps [l] =
      match rowOfRec fname w h fps rec with
      | .error e => .error e
      | .ok r => .ok [r] := by
  simp only [rowsOfLines]
  rw [if_neg hnb, hp]

/-- A single non-blank line whose parse raises propagates that error. -/
theorem rowsOfLines_single_err (fname : String) (w h : ℤ) (fps : ℚ)
    (l : String) (e : PyErr) (hnb : ¬ pyStripStr l = "")
    (hp : parse_label_line l = .error e) :
    rowsOfLines fname w h fps [l] = .error e := by
  simp only [rowsOfLines]
  rw [if_neg hnb, hp]

/-- Successful token conversion of a line determines the parse result up to
the class conversion: the record holds the box and the length-routed
keypoint grouping. -/
theorem parse_label_line_eq (l : String) (v0 v1 v2 v3 v4 : PyFloat)
    (rem : List PyFloat)
    (hc : mapOpt strToFloat (pySplitTokens (pyStripStr l)) =
      some (v0 :: v1 :: v2 :: v3 :: v4 :: rem)) :
    parse_label_line l =
      match pyInt v0 with
      | .error e => .error e
      | .ok cls => .ok (some ⟨cls, v1, v2, v3, v4,
          if rem.isEmpty then []
          else if rem.length % 3 = 0 then chunk3 rem else chunk2 rem⟩) := by
  have hlt : ¬ (pySplitTokens (pyStripStr l)).length < 5 := by
    have hl := mapOpt_length strToFloat _ _ hc
    simp only [List.length_cons] at hl
    omega
  unfold parse_label_line
  rw [if_neg hlt, hc]
  dsimp only
  cases pyInt v0 with
  | error e => rfl
  | ok cls =>
    dsimp only
    by_cases hre : rem.isEmpty
    · rw [if_pos hre, if_pos hre]
    · rw [if_neg hre, if_neg hre]
      by_cases h3 : rem.length % 3 = 0
      · rw [if_pos h3, if_pos h3]
      · rw [if_neg h3, if_neg h3]
        by_cases h2 : rem.length % 2 = 0
        · rw [if_pos h2]
        · rw [if_neg h2]

/-- A line with at least five tokens cannot be blank. -/
theorem strip_ne_empty_of_vals (l : String) (vals : List PyFloat)
    (hc : mapOpt strToFloat (pySplitTokens (pyStripStr l)) = some vals)
    (h5 : 5 ≤ vals.length) : ¬ pyStripStr l = "" := by
  intro hb
  rw [hb] at hc
  have : vals = [] := by
    have he : pySplitTokens "" = [] := rfl
    rw [he] at hc
    simpa [mapOpt] using hc.symm
  subst this
  simp at h5

/-- C10: two input lines that are identical except in the confidence
positions of their keypoint triplets (remainder lengths equal and a
multiple of 3, first five values equal, all non-confidence remainder
positions equal) make the pipeline produce identical output for the line. -/
theorem c10_confidence_independent (fname : String) (w h : ℤ) (fps : ℚ)
    (l1 l2 : String) (vals1 vals2 : List PyFloat)
    (hc1 : mapOpt strToFloat (pySplitTokens (pyStripStr l1)) = some vals1)
    (hc2 : mapOpt strToFloat (pySplitTokens (pyStripStr l2)) = some vals2)
    (hlen : vals1.length = vals2.length)
    (h5 : 5 ≤ vals1.length)
    (hpre : vals1.take 5 = vals2.take 5)
    (hmod : (vals1.length - 5) % 3 = 0)
    (hxy : ∀ i, i < vals1.length - 5 → i % 3 ≠ 2 →
      (vals1.drop 5)[i]? = (vals2.drop 5)[i]?) :
    rowsOfLines fname w h fps [l1] = rowsOfLines fname w h fps [l2] := by
  obtain ⟨a0, a1, a2, a3, a4, rem1, rfl⟩ := exists_five_cons vals1 h5
  obtain ⟨b0, b1, b2, b3, b4, rem2, rfl⟩ := exists_five_cons vals2 (by omega)
  obtain ⟨rfl, rfl, rfl, rfl, rfl⟩ :
      a0 = b0 ∧ a1 = b1 ∧ a2 = b2 ∧ a3 = b3 ∧ a4 = b4 := by
    simpa using hpre
  have hremlen : rem1.length = rem2.length := by
    simp only [List.length_cons] at hlen
    omega
  have hmod1 : rem1.length % 3 = 0 := by
    simpa using hmod
  have hxy1 : ∀ i, i < rem1.length → i % 3 ≠ 2 → rem1[i]? = rem2[i]? := by
    intro i hi hm
    have hh := hxy i (by simp; omega) hm
    simpa using hh
  have hnb1 := strip_ne_empty_of_vals l1 _ hc1 (by simp)
  have hnb2 := strip_ne_empty_of_vals l2 _ hc2 (by simp)
  have hP1 := parse_label_line_eq l1 _ _ _ _ _ _ hc1
  have hP2 := parse_label_line_eq l2 _ _ _ _ _ _ hc2
  cases hcls : pyInt a0 with
  | error e =>
    rw [hcls] at hP1 hP2
    dsimp only at hP1 hP2
    rw [rowsOfLines_single_err fname w h fps l1 e hnb1 hP1,
      rowsOfLines_single_err fname w h fps l2 e hnb2 hP2]
  | ok cls =>
    rw [hcls] at hP1 hP2
    dsimp only at hP1 hP2
    have hsc : stripConf
        (if rem1.isEmpty then []
         else if rem1.length % 3 = 0 then chunk3 rem1 else chunk2 rem1) =
        stripConf
        (if rem2.isEmpty then []
         else if rem2.length % 3 = 0 then chunk3 rem2 else chunk2 rem2) := by
      by_cases hre : rem1.isEmpty
      · have hre2 : rem2.isEmpty := by
          rw [List.isEmpty_iff] at hre ⊢
          subst hre
          simpa using hremlen.symm
        rw [if_pos hre, if_pos hre2]
      · have hre2 : ¬ rem2.isEmpty := by
          rw [List.isEmpty_iff] at hre ⊢
          intro hq
          subst hq
          simp at hremlen
          exact hre (by simpa using hremlen)
        rw [if_neg hre, if_neg hre2, if_pos hmod1, if_pos (hremlen ▸ hmod1)]
        exact chunk3_stripConf rem1 rem2 hremlen hxy1
    have hcongr := rowOfRec_congr fname w h fps
      ⟨cls, a1, a2, a3, a4,
        if rem1.isEmpty then []
        else if rem1.length % 3 = 0 then chunk3 rem1 else chunk2 rem1⟩
      ⟨cls, a1, a2, a3, a4,
        if rem2.isEmpty then []
        else if rem2.length % 3 = 0 then chunk3 rem2 else chunk2 rem2⟩ hsc
    rw [rowsOfLines_single fname w h fps l1 _ hnb1 hP1,
      rowsOfLines_single fname w h fps l2 _ hnb2 hP2, hcongr]

/-- Witness for C10: two concrete lines differing only in the confidence
slots produce the same output row. -/
theorem c10_confidence_independent_witness :
    rowsOfLines "k.txt" 2 2 1 ["0 0 0 0 0 1 2 9 3 4 8"] =
      rowsOfLines "k.txt" 2 2 1 ["0 0 0 0 0 1 2 7 3 4 6"] :=
  c10_confidence_independent "k.txt" 2 2 1
    "0 0 0 0 0 1 2 9 3 4 8" "0 0 0 0 0 1 2 7 3 4 6"
    [.pfin 0, .pfin 0, .pfin 0, .pfin 0, .pfin 0,
     .pfin 1, .pfin 2, .pfin 9, .pfin 3, .pfin 4, .pfin 8]
    [.pfin 0, .pfin 0, .pfin 0, .pfin 0, .pfin 0,
     .pfin 1, .pfin 2, .pfin 7, .pfin 3, .pfin 4, .pfin 6]
    (by decide) (by decide) (by decide) (by decide) (by decide) (by decide)
    (by decide)

/-! ### C4: archive-member error handling -/

/-- A concrete archive with one undecodable member followed by one good
member (in name order). -/
def badArchive : List TarMember :=
  [⟨"a.txt", true, some (.error .unicodeDecodeError)⟩,
   ⟨"b.txt", true, some (.ok "0 0 0 0 0")⟩]

/-- C4 (counterexample): an unreadable member does not merely lose its own
contribution — `process_archive` has no per-member handler, so the decode
error aborts the whole archive and the following good member produces no
rows (the result is an error, not a row list). -/
theorem c4_counterexample :
    process_archive badArchive 1 1 1 = .error .unicodeDecodeError := rfl

/-- C4 (amended): a member for which `extractfile` returns no stream is
skipped and processing continues with the next member; but a member whose
stream fails to read/decode raises, aborting the whole archive (no
remaining member is processed). -/
theorem c4_member_error_policy :
    (∀ (w h : ℤ) (fps : ℚ) (pre post : List TarMember) (m : TarMember),
      m.extract = none →
      processArchiveMembers w h fps (pre ++ m :: post) =
        processArchiveMembers w h fps (pre ++ post)) ∧
    (∀ (w h : ℤ) (fps : ℚ) (m : TarMember) (rest : List TarMember)
      (fh : Except PyErr String) (e : PyErr),
      m.extract = some fh →
      process_txt_handle m.name fh w h fps = .error e →
      processArchiveMembers w h fps (m :: rest) = .error e) := by
  constructor
  · intro w h fps pre post m hm
    induction pre with
    | nil =>
      simp only [List.nil_append, processArchiveMembers, hm]
    | cons a pre ih =>
      simp only [List.cons_append, processArchiveMembers, List.append_eq, ih]
  · intro w h fps m rest fh e hm hp
    simp only [processArchiveMembers, hm]
    rw [hp]

/-- Witness for C4 (amended) at concrete members: a stream-less member is
skipped; an undecodable member aborts with its error. -/
theorem c4_member_error_policy_witness :
    processArchiveMembers 1 1 1 [⟨"x.txt", true, none⟩] =
      processArchiveMembers 1 1 1 [] ∧
    processArchiveMembers 1 1 1
      [⟨"y.txt", true, some (.error .unicodeDecodeError)⟩] =
      .error .unicodeDecodeError :=
  ⟨c4_member_error_policy.1 1 1 1 [] [] ⟨"x.txt", true, none⟩ rfl,
   c4_member_error_policy.2 1 1 1
     ⟨"y.txt", true, some (.error .unicodeDecodeError)⟩ []
     (.error .unicodeDecodeError) .unicodeDecodeError rfl rfl⟩

/-! ### C5: an unopenable archive aborts the run before any CSV output -/

/-- If some archive argument cannot be opened, the archive loop fails. -/
theorem runArchives_error_of_unopenable (w h : ℤ) (fps : ℚ) :
    ∀ archives : List (Option (List TarMember)), none ∈ archives →
      ∃ e, runArchives w h fps archives = .error e := by
  intro archives
  induction archives with
  | nil => intro hm; simp at hm
  | cons a rest ih =>
    intro hm
    cases a with
    | none => exact ⟨.tarOpenError, rfl⟩
    | some tar =>
      have hm2 : none ∈ rest := by
        rcases List.mem_cons.mp hm with h | h
        · exact absurd h.symm (by simp)
        · exact h
      simp only [runArchives]
      cases hpa : process_archive tar w h fps with
      | error e => exact ⟨e, rfl⟩
      | ok rs =>
        dsimp only
        obtain ⟨e, he⟩ := ih hm2
        rw [he]
        exact ⟨e, rfl⟩

/-- C5: if any named archive cannot be opened, the run fails before the CSV
is produced — `mainCsv` returns an error and no CSV (partial or complete)
exists, because the single CSV write happens only after all sources are
consumed. -/
theorem c5_unopenable_archive_is_fatal (dir : Option (List DirEntry))
    (archives : List (Option (List TarMember))) (w h : ℤ) (fps : ℚ)
    (rZ : ℤ → String) (rQ : ℚ → String) (rF : PyFloat → String)
    (rR : PyRVal → String) (hbad : none ∈ archives) :
    ∃ e, mainCsv dir archives w h fps rZ rQ rF rR = .error e := by
  obtain ⟨e, he⟩ := runArchives_error_of_unopenable w h fps archives hbad
  refine ⟨e, ?_⟩
  unfold mainCsv mainRows
  rw [he]

/-- Witness for C5: a run whose only archive is unopenable yields an error
and no CSV. -/
theorem c5_unopenable_archive_is_fatal_witness :
    ∃ e, mainCsv none [none] 1 1 1 (fun _ => "") (fun _ => "") (fun _ => "")
      (fun _ => "") = .error e :=
  c5_unopenable_archive_is_fatal none [none] 1 1 1 (fun _ => "")
    (fun _ => "") (fun _ => "") (fun _ => "") (List.mem_singleton.mpr rfl)

/-! ### C8: CSV writer schema -/

/-- A serialised cell is empty exactly for an absent value, provided the
stringifier never produces an empty string (Python `str` of a number or
float never does). -/
theorem cellOf_eq_empty_iff {α : Type} (render : α → String)
    (hr : ∀ v, render v ≠ "") (o : Option α) :
    (cellOf render o = "" ↔ o = none) := by
  cases o with
  | none => simp [cellOf]
  | some v => simp [cellOf, hr v]

/-- C8: the CSV Writer emits exactly one header record with the nine column
names in order, then one record per Output Row in sequence order; every
record has nine cells, data record `i` holds the cells of row `i`, and a
cell among the eight value columns is empty exactly when the field is
absent (the first cell is the filename verbatim). -/
theorem c8_csv_writer (rZ : ℤ → String) (rQ : ℚ → String)
    (rF : PyFloat → String) (rR : PyRVal → String)
    (hZ : ∀ z, rZ z ≠ "") (hQ : ∀ q, rQ q ≠ "")
    (hF : ∀ v, rF v ≠ "") (hR : ∀ v, rR v ≠ "") (rows : List Row) :
    (write_csv rZ rQ rF rR rows).length = rows.length + 1 ∧
    (write_csv rZ rQ rF rR rows).head? = some csvHeader ∧
    (∀ rec ∈ write_csv rZ rQ rF rR rows, rec.length = 9) ∧
    (∀ (i : ℕ) (r : Row), rows[i]? = some r →
      (write_csv rZ rQ rF rR rows)[i + 1]? =
        some (cellsOf rZ rQ rF rR r) ∧
      (cellsOf rZ rQ rF rR r)[0]? = some r.filename ∧
      ((cellsOf rZ rQ rF rR r)[1]? = some "" ↔ r.frame = none) ∧
      ((cellsOf rZ rQ rF rR r)[2]? = some "" ↔ r.time_s = none) ∧
      ((cellsOf rZ rQ rF rR r)[3]? = some "" ↔ r.nose_x = none) ∧
      ((cellsOf rZ rQ rF rR r)[4]? = some "" ↔ r.nose_y = none) ∧
      ((cellsOf rZ rQ rF rR r)[5]? = some "" ↔ r.mouth_x = none) ∧
      ((cellsOf rZ rQ rF rR r)[6]? = some "" ↔ r.mouth_y = none) ∧
      ((cellsOf rZ rQ rF rR r)[7]? = some "" ↔ r.d_px = none) ∧
      ((cellsOf rZ rQ rF rR r)[8]? = some "" ↔ r.d_norm = none)) := by
  refine ⟨by simp [write_csv], rfl, ?_, ?_⟩
  · intro rec hrec
    rcases List.mem_cons.mp hrec with rfl | hmem
    · rfl
    · obtain ⟨r, _, rfl⟩ := List.mem_map.mp hmem
      rfl
  · intro i r hi
    refine ⟨?_, rfl, ?_, ?_, ?_, ?_, ?_, ?_, ?_, ?_⟩
    · simp [write_csv, hi]
    · simpa [cellsOf] using cellOf_eq_empty_iff rZ hZ r.frame
    · simpa [cellsOf] using cellOf_eq_empty_iff rQ hQ r.time_s
    · simpa [cellsOf] using cellOf_eq_empty_iff rF hF r.nose_x
    · simpa [cellsOf] using cellOf_eq_empty_iff rF hF r.nose_y
    · simpa [cellsOf] using cellOf_eq_empty_iff rF hF r.mouth_x
    · simpa [cellsOf] using cellOf_eq_empty_iff rF hF r.mouth_y
    · simpa [cellsOf] using cellOf_eq_empty_iff rR hR r.d_px
    · simpa [cellsOf] using cellOf_eq_empty_iff rR hR r.d_norm

/-- Witness for C8: writing one all-absent row yields the header plus one
nine-cell record whose value cells are empty. -/
theorem c8_csv_writer_witness :
    (write_csv (fun _ => "v") (fun _ => "v") (fun _ => "v") (fun _ => "v")
      [⟨"a.txt", none, none, none, none, none, none, none, none⟩]).length =
      [(⟨"a.txt", none, none, none, none, none, none, none, none⟩ :
        Row)].length + 1 ∧
    (write_csv (fun _ => "v") (fun _ => "v") (fun _ => "v") (fun _ => "v")
      [⟨"a.txt", none, none, none, none, none, none, none, none⟩]).head? =
      some csvHeader ∧
    ((cellsOf (fun _ => "v") (fun _ => "v") (fun _ => "v") (fun _ => "v")
      ⟨"a.txt", none, none, none, none, none, none, none, none⟩)[1]? =
      some "" ↔
      (⟨"a.txt", none, none, none, none, none, none, none, none⟩ :
        Row).frame = none) :=
  ⟨(c8_csv_writer (fun _ => "v") (fun _ => "v") (fun _ => "v") (fun _ => "v")
      (fun _ => by show ("v" : String) ≠ ""; decide) (fun _ => by show ("v" : String) ≠ ""; decide) (fun _ => by show ("v" : String) ≠ ""; decide)
      (fun _ => by show ("v" : String) ≠ ""; decide)
      [⟨"a.txt", none, none, none, none, none, none, none, none⟩]).1,
   (c8_csv_writer (fun _ => "v") (fun _ => "v") (fun _ => "v") (fun _ => "v")
      (fun _ => by show ("v" : String) ≠ ""; decide) (fun _ => by show ("v" : String) ≠ ""; decide) (fun _ => by show ("v" : String) ≠ ""; decide)
      (fun _ => by show ("v" : String) ≠ ""; decide)
      [⟨"a.txt", none, none, none, none, none, none, none, none⟩]).2.1,
   ((c8_csv_writer (fun _ => "v") (fun _ => "v") (fun _ => "v") (fun _ => "v")
      (fun _ => by show ("v" : String) ≠ ""; decide) (fun _ => by show ("v" : String) ≠ ""; decide) (fun _ => by show ("v" : String) ≠ ""; decide)
      (fun _ => by show ("v" : String) ≠ ""; decide)
      [⟨"a.txt", none, none, none, none, none, none, none, none⟩]).2.2.2 0
      ⟨"a.txt", none, none, none, none, none, none, none, none⟩
      rfl).2.2.1⟩

/-! ### C7: ordering of output rows -/

/-- The lexicographic order is reflexive. -/
theorem lexLe_refl : ∀ l : List Char, lexLe l l = true
  | [] => rfl
  | a :: as => by
    simp only [lexLe]
    rw [if_neg (by omega), if_neg (by omega)]
    exact lexLe_refl as

/-- The lexicographic order is total. -/
theorem lexLe_total : ∀ l1 l2 : List Char, lexLe l1 l2 = true ∨ lexLe l2 l1 = true
  | [], _ => Or.inl rfl
  | _ :: _, [] => Or.inr rfl
  | a :: as, b :: bs => by
    simp only [lexLe]
    by_cases hab : a.toNat < b.toNat
    · left
      rw [if_pos hab]
    · by_cases hba : b.toNat < a.toNat
      · right
        rw [if_pos hba]
      · rw [if_neg hab, if_neg hba, if_neg hba, if_neg hab]
        exact lexLe_total as bs

/-- The lexicographic order is transitive. -/
theorem lexLe_trans : ∀ l1 l2 l3 : List Char,
    lexLe l1 l2 = true → lexLe l2 l3 = true → lexLe l1 l3 = true
  | [], _, _, _, _ => rfl
  | _ :: _, [], _, h12, _ => by simp [lexLe] at h12
  | _ :: _, _ :: _, [], _, h23 => by simp [lexLe] at h23
  | a :: as, b :: bs, c :: cs, h12, h23 => by
    simp only [lexLe] at h12 h23 ⊢
    by_cases hab : a.toNat < b.toNat
    · by_cases hbc : b.toNat < c.toNat
      · rw [if_pos (show a.toNat < c.toNat by omega)]
      · by_cases hcb : c.toNat < b.toNat
        · rw [if_neg hbc, if_pos hcb] at h23
          exact absurd h23 (by simp)
        · rw [if_pos (show a.toNat < c.toNat by omega)]
    · by_cases hba : b.toNat < a.toNat
      · rw [if_neg hab, if_pos hba] at h12
        exact absurd h12 (by simp)
      · by_cases hbc : b.toNat < c.toNat
        · rw [if_pos (show a.toNat < c.toNat by omega)]
        · by_cases hcb : c.toNat < b.toNat
          · rw [if_neg hbc, if_pos hcb] at h23
            exact absurd h23 (by simp)
          · rw [if_neg hab, if_neg hba] at h12
            rw [if_neg hbc, if_neg hcb] at h23
            rw [if_neg (show ¬ a.toNat < c.toNat by omega),
              if_neg (show ¬ c.toNat < a.toNat by omega)]
            exact lexLe_trans as bs cs h12 h23

/-- Members of an insertion are the inserted element or old members. -/
theorem mem_insertLe {α : Type} (le : α → α → Bool) (x : α) :
    ∀ (l : List α) (z : α), z ∈ insertLe le x l → z = x ∨ z ∈ l
  | [], z, h => by simpa [insertLe] using h
  | y :: ys, z, h => by
    simp only [insertLe] at h
    by_cases hle : le x y
    · rw [if_pos hle] at h
      rcases List.mem_cons.mp h with rfl | h2
      · exact Or.inl rfl
      · exact Or.inr h2
    · rw [if_neg hle] at h
      rcases List.mem_cons.mp h with rfl | h2
      · exact Or.inr (List.mem_cons_self _ _)
      · rcases mem_insertLe le x ys z h2 with h3 | h3
        · exact Or.inl h3
        · exact Or.inr (List.mem_cons_of_mem _ h3)

/-- Insertion into a sorted list keeps it sorted (for a total transitive
Boolean order). -/
theorem pairwise_insertLe {α : Type} (le : α → α → Bool)
    (htot : ∀ a b, le a b = true ∨ le b a = true)
    (htrans : ∀ a b c, le a b = true → le b c = true → le a c = true)
    (x : α) : ∀ l : List α, l.Pairwise (fun a b => le a b = true) →
      (insertLe le x l).Pairwise (fun a b => le a b = true)
  | [], _ => by simp [insertLe]
  | y :: ys, h => by
    obtain ⟨hy, hys⟩ := List.pairwise_cons.mp h
    simp only [insertLe]
    by_cases hle : le x y
    · rw [if_pos hle]
      refine List.pairwise_cons.mpr ⟨?_, h⟩
      intro z hz
      rcases List.mem_cons.mp hz with rfl | h2
      · exact hle
      · exact htrans x y z hle (hy z h2)
    · rw [if_neg hle]
      refine List.pairwise_cons.mpr
        ⟨?_, pairwise_insertLe le htot htrans x ys hys⟩
      intro z hz
      rcases mem_insertLe le x ys z hz with rfl | h2
      · rcases htot z y with h3 | h3
        · exact absurd h3 hle
        · exact h3
      · exact hy z h2

/-- The model of `sorted` produces a list sorted by the given order. -/
theorem pairwise_sortLe {α : Type} (le : α → α → Bool)
    (htot : ∀ a b, le a b = true ∨ le b a = true)
    (htrans : ∀ a b c, le a b = true → le b c = true → le a c = true) :
    ∀ l : List α, (sortLe le l).Pairwise (fun a b => le a b = true)
  | [] => by simp [sortLe]
  | x :: xs => by
    simp only [sortLe]
    exact pairwise_insertLe le htot htrans x _
      (pairwise_sortLe le htot htrans xs)

/-- Every row the Row Assembler produces carries the source identifier it
was given. -/
theorem rowOfRec_filename (fname : String) (w h : ℤ) (fps : ℚ)
    (rec : DetRec) (row : Row)
    (hok : rowOfRec fname w h fps rec = .ok row) : row.filename = fname := by
  unfold rowOfRec at hok
  rcases hk : rec.kps with _ | ⟨⟨nx, ny, nc⟩, _ | ⟨⟨mx, my, mc⟩, ktail⟩⟩
  · rw [hk] at hok
    dsimp only at hok
    simp only [Except.ok.injEq] at hok
    subst hok
    rfl
  · rw [hk] at hok
    dsimp only at hok
    simp only [Except.ok.injEq] at hok
    subst hok
    rfl
  · rw [hk] at hok
    dsimp only at hok
    cases hdn : d_norm_of
        (pyHypot
          (pfSub (norm_to_px nx ny w h).1 (norm_to_px mx my w h).1)
          (pfSub (norm_to_px nx ny w h).2 (norm_to_px mx my w h).2)) w h with
    | error e =>
      rw [hdn] at hok
      exact Except.noConfusion hok
    | ok dn =>
      rw [hdn] at hok
      simp only [Except.ok.injEq] at hok
      subst hok
      rfl

/-- Every row produced from a text handle carries that handle's label. -/
theorem process_txt_handle_filenames (fname : String)
    (fh : Except PyErr String) (w h : ℤ) (fps : ℚ) (rows : List Row)
    (hok : process_txt_handle fname fh w h fps = .ok rows) :
    ∀ r ∈ rows, r.filename = fname := by
  intro r hr
  cases fh with
  | error e => exact Except.noConfusion hok
  | ok text =>
    obtain ⟨rec, hro⟩ :=
      rowsOfLines_mem fname w h fps (linesOfText text) rows hok r hr
    exact rowOfRec_filename fname w h fps rec r hro

/-- Every row of a directory run names one of the directory's entries. -/
theorem processDirFiles_names (w h : ℤ) (fps : ℚ) :
    ∀ entries : List DirEntry, ∀ r ∈ processDirFiles w h fps entries,
      ∃ e ∈ entries, r.filename = e.name
  | [] => by simp [processDirFiles]
  | e :: rest => by
    intro r hr
    simp only [processDirFiles] at hr
    rcases List.mem_append.mp hr with h1 | h2
    · cases hp : process_txt_handle e.name e.content w h fps with
      | error er =>
        rw [hp] at h1
        simp at h1
      | ok rs =>
        rw [hp] at h1
        exact ⟨e, List.mem_cons_self _ _,
          process_txt_handle_filenames e.name e.content w h fps rs hp r h1⟩
    · obtain ⟨e2, he2, hf⟩ := processDirFiles_names w h fps rest r h2
      exact ⟨e2, List.mem_cons_of_mem _ he2, hf⟩

/-- A directory run over name-sorted entries yields rows whose filenames
appear in nondecreasing lexicographic order. -/
theorem processDirFiles_pairwise (w h : ℤ) (fps : ℚ) :
    ∀ entries : List DirEntry,
      entries.Pairwise (fun a b => strLe a.name b.name = true) →
      (processDirFiles w h fps entries).Pairwise
        (fun r1 r2 => strLe r1.filename r2.filename = true)
  | [], _ => by simp [processDirFiles]
  | e :: rest, hpw => by
    obtain ⟨hhead, htail⟩ := List.pairwise_cons.mp hpw
    simp only [processDirFiles]
    refine List.pairwise_append.mpr
      ⟨?_, processDirFiles_pairwise w h fps rest htail, ?_⟩
    · cases hp : process_txt_handle e.name e.content w h fps with
      | error er => simp
      | ok rs =>
        have hf := process_txt_handle_filenames e.name e.content w h fps rs hp
        refine List.pairwise_iff_forall_sublist.mpr ?_
        intro r1 r2 hsub
        have h1 : r1 ∈ rs := hsub.subset (by simp)
        have h2 : r2 ∈ rs := hsub.subset (by simp)
        rw [hf r1 h1, hf r2 h2]
        exact lexLe_refl _
    · intro r1 h1 r2 h2
      obtain ⟨e2, he2, hf2⟩ := processDirFiles_names w h fps rest r2 h2
      have hf1 : r1.filename = e.name := by
        cases hp : process_txt_handle e.name e.content w h fps with
        | error er =>
          rw [hp] at h1
          simp at h1
        | ok rs =>
          rw [hp] at h1
          exact process_txt_handle_filenames e.name e.content w h fps rs hp
            r1 h1
      rw [hf1, hf2]
      exact hhead e2 he2

/-- Every row of a successful archive run names one of the members. -/
theorem processArchiveMembers_names (w h : ℤ) (fps : ℚ) :
    ∀ (members : List TarMember) (rows : List Row),
      processArchiveMembers w h fps members = .ok rows →
      ∀ r ∈ rows, ∃ m ∈ members, r.filename = m.name
  | [], rows, hok => by
    simp only [processArchiveMembers, Except.ok.injEq] at hok
    subst hok
    simp
  | m :: rest, rows, hok => by
    intro r hr
    simp only [processArchiveMembers] at hok
    cases hm : m.extract with
    | none =>
      rw [hm] at hok
      obtain ⟨m2, hm2, hf⟩ :=
        processArchiveMembers_names w h fps rest rows hok r hr
      exact ⟨m2, List.mem_cons_of_mem _ hm2, hf⟩
    | some fh =>
      rw [hm] at hok
      dsimp only at hok
      cases hp : process_txt_handle m.name fh w h fps with
      | error e =>
        rw [hp] at hok
        exact Except.noConfusion hok
      | ok rs =>
        rw [hp] at hok
        dsimp only at hok
        cases hrest : processArchiveMembers w h fps rest with
        | error e =>
          rw [hrest] at hok
          exact Except.noConfusion hok
        | ok rs2 =>
          rw [hrest] at hok
          simp only [Except.ok.injEq] at hok
          subst hok
          rcases List.mem_append.mp hr with h1 | h2
          · exact ⟨m, List.mem_cons_self _ _,
              process_txt_handle_filenames m.name fh w h fps rs hp r h1⟩
          · obtain ⟨m2, hm2, hf⟩ :=
              processArchiveMembers_names w h fps rest rs2 hrest r h2
            exact ⟨m2, List.mem_cons_of_mem _ hm2, hf⟩

/-- A successful archive run over name-sorted members yields rows whose
filenames appear in nondecreasing lexicographic order. -/
theorem processArchiveMembers_pairwise (w h : ℤ) (fps : ℚ) :
    ∀ (members : List TarMember) (rows : List Row),
      processArchiveMembers w h fps members = .ok rows →
      members.Pairwise (fun a b => strLe a.name b.name = true) →
      rows.Pairwise (fun r1 r2 => strLe r1.filename r2.filename = true)
  | [], rows, hok, _ => by
    simp only [processArchiveMembers, Except.ok.injEq] at hok
    subst hok
    simp
  | m :: rest, rows, hok, hsorted => by
    obtain ⟨hhead, htail⟩ := List.pairwise_cons.mp hsorted
    simp only [processArchiveMembers] at hok
    cases hm : m.extract with
    | none =>
      rw [hm] at hok
      exact processArchiveMembers_pairwise w h fps rest rows hok htail
    | some fh =>
      rw [hm] at hok
      dsimp only at hok
      cases hp : process_txt_handle m.name fh w h fps with
      | error e =>
        rw [hp] at hok
        exact Except.noConfusion hok
      | ok rs =>
        rw [hp] at hok
        dsimp only at hok
        cases hrest : processArchiveMembers w h fps rest with
        | error e =>
          rw [hrest] at hok
          exact Except.noConfusion hok
        | ok rs2 =>
          rw [hrest] at hok
          simp only [Except.ok.injEq] at hok
          subst hok
          have hf := process_txt_handle_filenames m.name fh w h fps rs hp
          refine List.pairwise_append.mpr
            ⟨?_, processArchiveMembers_pairwise w h fps rest rs2 hrest htail,
              ?_⟩
          · refine List.pairwise_iff_forall_sublist.mpr ?_
            intro r1 r2 hsub
            have h1 : r1 ∈ rs := hsub.subset (by simp)
            have h2 : r2 ∈ rs := hsub.subset (by simp)
            rw [hf r1 h1, hf r2 h2]
            exact lexLe_refl _
          · intro r1 h1 r2 h2
            obtain ⟨m2, hm2, hf2⟩ :=
              processArchiveMembers_names w h fps rest rs2 hrest r2 h2
            rw [hf r1 h1, hf2]
            exact hhead m2 hm2

/-- A successful archive loop splits into one successful
`process_archive` run per archive argument, concatenated in argument
order. -/
theorem runArchives_ok_decomp (w h : ℤ) (fps : ℚ) :
    ∀ (archs : List (Option (List TarMember))) (archRows : List Row),
      runArchives w h fps archs = .ok archRows →
      ∃ perArch : List (List Row),
        List.Forall₂ (fun a rs => ∃ t, a = some t ∧
          process_archive t w h fps = .ok rs) archs perArch ∧
        archRows = perArch.flatten
  | [], archRows, hok => by
    simp only [runArchives, Except.ok.injEq] at hok
    subst hok
    exact ⟨[], List.Forall₂.nil, rfl⟩
  | none :: rest, archRows, hok => by
    simp only [runArchives] at hok
    exact Except.noConfusion hok
  | some tar :: rest, archRows, hok => by
    simp only [runArchives] at hok
    cases hpa : process_archive tar w h fps with
    | error e =>
      rw [hpa] at hok
      exact Except.noConfusion hok
    | ok rs =>
      rw [hpa] at hok
      dsimp only at hok
      cases hrest : runArchives w h fps rest with
      | error e =>
        rw [hrest] at hok
        exact Except.noConfusion hok
      | ok rs2 =>
        rw [hrest] at hok
        simp only [Except.ok.injEq] at hok
        subst hok
        obtain ⟨per, hfa, rfl⟩ := runArchives_ok_decomp w h fps rest rs2 hrest
        exact ⟨rs :: per, List.Forall₂.cons ⟨tar, rfl, hpa⟩ hfa, rfl⟩

/-- Line order is preserved: processing a concatenation of line blocks
yields the concatenation of the blocks' rows (errors propagating from the
first failing block). -/
theorem rowsOfLines_append (fname : String) (w h : ℤ) (fps : ℚ) :
    ∀ ls1 ls2 : List String,
      rowsOfLines fname w h fps (ls1 ++ ls2) =
        match rowsOfLines fname w h fps ls1 with
        | .error e => .error e
        | .ok a =>
          match rowsOfLines fname w h fps ls2 with
          | .error e => .error e
          | .ok b => .ok (a ++ b)
  | [], ls2 => by
    simp only [List.nil_append, rowsOfLines]
    cases rowsOfLines fname w h fps ls2 with
    | error e => rfl
    | ok b => rfl
  | l :: ls1, ls2 => by
    simp only [List.cons_append, rowsOfLines]
    by_cases hb : pyStripStr l = ""
    · rw [if_pos hb, if_pos hb]
      exact rowsOfLines_append fname w h fps ls1 ls2
    · rw [if_neg hb, if_neg hb]
      cases parse_label_line l with
      | error e => rfl
      | ok orec =>
        cases orec with
        | none =>
          dsimp only
          exact rowsOfLines_append fname w h fps ls1 ls2
        | some rec =>
          dsimp only
          cases rowOfRec fname w h fps rec with
          | error e => rfl
          | ok r =>
            dsimp only
            rw [List.append_eq, rowsOfLines_append fname w h fps ls1 ls2]
            cases rowsOfLines fname w h fps ls1 with
            | error e => rfl
            | ok a =>
              dsimp only
              cases rowsOfLines fname w h fps ls2 with
              | error e => rfl
              | ok b => rfl

/-- C7: when a directory and archives are both supplied, (1) the output is
the directory rows followed by the rows of each archive in argument order;
(2) directory rows appear in nondecreasing lexicographic filename order;
(3) so do the rows of each single archive, by member name; (4) within one
file, rows preserve line order (block concatenation maps to row
concatenation). -/
theorem c7_row_ordering (d : List DirEntry)
    (archives : List (Option (List TarMember))) (w h : ℤ) (fps : ℚ)
    (rows : List Row)
    (hmain : mainRows (some d) archives w h fps = .ok rows) :
    (∃ perArch : List (List Row),
      List.Forall₂ (fun a rs => ∃ t, a = some t ∧
        process_archive t w h fps = .ok rs) archives perArch ∧
      rows = process_dir d w h fps ++ perArch.flatten) ∧
    (process_dir d w h fps).Pairwise
      (fun r1 r2 => strLe r1.filename r2.filename = true) ∧
    (∀ (tar : List TarMember) (rs : List Row),
      process_archive tar w h fps = .ok rs →
      rs.Pairwise (fun r1 r2 => strLe r1.filename r2.filename = true)) ∧
    (∀ (fname : String) (ls1 ls2 : List String),
      rowsOfLines fname w h fps (ls1 ++ ls2) =
        match rowsOfLines fname w h fps ls1 with
        | .error e => .error e
        | .ok a =>
          match rowsOfLines fname w h fps ls2 with
          | .error e => .error e
          | .ok b => .ok (a ++ b)) := by
  have htot : ∀ a b : String, strLe a b = true ∨ strLe b a = true :=
    fun a b => lexLe_total a.data b.data
  have htrans : ∀ a b c : String,
      strLe a b = true → strLe b c = true → strLe a c = true :=
    fun a b c => lexLe_trans a.data b.data c.data
  refine ⟨?_, ?_, ?_, fun fname => rowsOfLines_append fname w h fps⟩
  · unfold mainRows at hmain
    cases hra : runArchives w h fps archives with
    | error e =>
      rw [hra] at hmain
      exact Except.noConfusion hmain
    | ok archRows =>
      rw [hra] at hmain
      simp only [Except.ok.injEq] at hmain
      subst hmain
      obtain ⟨per, hfa, rfl⟩ :=
        runArchives_ok_decomp w h fps archives archRows hra
      exact ⟨per, hfa, rfl⟩
  · unfold process_dir
    exact processDirFiles_pairwise w h fps _
      (pairwise_sortLe _ (fun (a b : DirEntry) => htot a.name b.name)
        (fun (a b c : DirEntry) => htrans a.name b.name c.name) _)
  · intro tar rs hok
    unfold process_archive at hok
    exact processArchiveMembers_pairwise w h fps _ rs hok
      (pairwise_sortLe _ (fun (a b : TarMember) => htot a.name b.name)
        (fun (a b c : TarMember) => htrans a.name b.name c.name) _)

/-- Witness for C7 at a concrete (empty) run: the decomposition, both
sortedness statements, and line-order preservation instantiated at
width 1, height 1, fps 1. -/
theorem c7_row_ordering_witness :
    (∃ perArch : List (List Row),
      List.Forall₂ (fun a rs => ∃ t, a = some t ∧
        process_archive t 1 1 1 = .ok rs)
        ([] : List (Option (List TarMember))) perArch ∧
      ([] : List Row) = process_dir [] 1 1 1 ++ perArch.flatten) ∧
    (process_dir [] 1 1 1).Pairwise
      (fun r1 r2 => strLe r1.filename r2.filename = true) ∧
    (∀ (tar : List TarMember) (rs : List Row),
      process_archive tar 1 1 1 = .ok rs →
      rs.Pairwise (fun r1 r2 => strLe r1.filename r2.filename = true)) ∧
    (∀ (fname : String) (ls1 ls2 : List String),
      rowsOfLines fname 1 1 1 (ls1 ++ ls2) =
        match rowsOfLines fname 1 1 1 ls1 with
        | .error e => .error e
        | .ok a =>
          match rowsOfLines fname 1 1 1 ls2 with
          | .error e => .error e
          | .ok b => .ok (a ++ b)) :=
  c7_row_ordering [] [] 1 1 1 [] rfl

end CowChew
